import Mathlib

/-!
# Verification of the `ratemykb` incremental processing-state engine

A shallow embedding of the `state` package of the repository
(`loadExistingReport`, `convertObsidianLinkToPath`, `updateReport`,
`formatObsidianLink`, `New`, `IsFileProcessed`, `AddProcessedFile`)
together with the data types they use (`scanner.FileStatus`,
`output.ResultFile`).

Go strings are modelled as `List Char` (Go indexes bytes, but every
string manipulated by the code under study is treated character-wise,
and UTF-8 byte order agrees with code-point order for comparisons).
The runtime path separator `filepath.Separator` is the Linux `'/'`.
Go maps are modelled as association lists; the list order plays the
role of one particular iteration order of `range`, and nondeterminism
of `range` is captured by quantifying over the order of the entries.
-/

set_option maxRecDepth 200000

namespace RateMyKb

/-- Go strings, modelled as lists of characters. -/
abbrev Str := List Char

/-- Embed a Lean string literal as a Go string. -/
def str (s : String) : Str := s.data

/-! ## Go standard-library string primitives used by the source -/

/-- Model of `bufio.Scanner` line splitting: split on `'\n'`.
(`bufio.ScanLines` also strips a trailing `'\r'`, which never occurs in
the reports generated here, and does not emit a final empty token; the
final empty piece produced by this model is inert for the decoder.) -/
def splitNl : Str → List Str
  | [] => [[]]
  | c :: cs =>
    if c = '\n' then [] :: splitNl cs
    else
      match splitNl cs with
      | [] => [[]]
      | l :: ls => (c :: l) :: ls

/-- Model of `strings.ReplaceAll` specialised to the one-character
pattern and replacement used by the source (the path separator and the
forward slash): replace every occurrence of `pat` by `rep`. -/
def replaceAllChar (s : Str) (pat rep : Char) : Str :=
  s.map (fun c => if c = pat then rep else c)

/-- Model of `strings.TrimSuffix`: drop `suffix` from the end of `s`
when present, otherwise return `s` unchanged. -/
def goTrimSuffix (s suffix : Str) : Str :=
  if suffix.isSuffixOf s then s.take (s.length - suffix.length) else s

/-- Model of `strings.ToLower` (character-wise). -/
def toLowerStr (s : Str) : Str := s.map Char.toLower

/-- Decimal rendering of a natural number, modelling `fmt.Sprintf`'s
`%d` for the non-negative counts printed by the source. -/
def natCharsCore : Nat → Nat → Str → Str
  | 0, _, acc => acc
  | fuel + 1, n, acc =>
    if n < 10 then Char.ofNat (48 + n % 10) :: acc
    else natCharsCore fuel (n / 10) (Char.ofNat (48 + n % 10) :: acc)

/-- Decimal digits of `n`, most significant first. -/
def natChars (n : Nat) : Str := natCharsCore (n + 1) n []

/-- Model of `filepath.Ext`: the suffix of the path beginning at the
final dot in the final path element; empty if there is none.
Implemented by scanning the reversed character list, mirroring the
byte scan of the Go implementation. -/
def filepathExtAux : Str → Str → Str
  | [], _ => []
  | c :: rest, seen =>
    if c = '/' then []
    else if c = '.' then '.' :: seen
    else filepathExtAux rest (c :: seen)

/-- `filepath.Ext` (see `filepathExtAux`). -/
def filepathExt (p : Str) : Str := filepathExtAux p.reverse []

/-- Model of `filepath.Base` for paths without a trailing slash: the
part of the path after the last separator. -/
def filepathBase (p : Str) : Str := (p.reverse.takeWhile (· ≠ '/')).reverse

/-- Model of `filepath.Join` for a clean base and a clean relative
second component, as produced by the code under study: concatenation
with a single separator.  (Go's `Join` additionally runs `Clean`,
which is the identity on such inputs.) -/
def filepathJoin (a b : Str) : Str := a ++ '/' :: b

/-- Composite model of the `filepath.Rel(targetFolder, filePath)` call
in `formatObsidianLink` together with its error fallback to
`filepath.Base`: when `filePath` lies under `base` the relative path is
the remainder after `base ++ "/"`; otherwise the source falls back to
the bare file name.  (Go's `Rel` can also return lexical `../` forms
for clean paths not under `base`; no theorem below exercises that
case.) -/
def filepathRelModel (base p : Str) : Str :=
  if (base ++ ['/']).isPrefixOf p then p.drop (base.length + 1)
  else filepathBase p

/-! ## Data model (`scanner.FileStatus`, `classification.Classification`,
`output.ResultFile`, `state.ProcessingState`) -/

/-- `scanner.StatusEmpty`. -/
def StatusEmpty : Str := str "Empty"

/-- `scanner.StatusFrontmatterOnly`. -/
def StatusFrontmatterOnly : Str := str "Frontmatter-only"

/-- `scanner.StatusNeedsReview`. -/
def StatusNeedsReview : Str := str "Needs-review"

/-- `scanner.StatusExcluded`. -/
def StatusExcluded : Str := str "Excluded"

/-- `output.ResultFile`: one entry of the processing state.
`Status` embeds `scanner.FileStatus` (a Go string type) and
`Classification` embeds `classification.Classification` (also a Go
string type). -/
structure ResultFile where
  Path : Str
  Status : Str
  Classification : Str
deriving DecidableEq, Repr

instance : Inhabited ResultFile := ⟨⟨[], [], []⟩⟩

/-- `state.ProcessingState`.  The Go map `ProcessedFiles` is modelled
as an association list from path to record. -/
structure ProcessingState where
  TargetFolder : Str
  ReportPath : Str
  ProcessedFiles : List (Str × ResultFile)
deriving DecidableEq, Repr

/-- Lookup in the Go map model (`m[k]`). -/
def lookupMap : List (Str × ResultFile) → Str → Option ResultFile
  | [], _ => none
  | (k', v) :: rest, k => if k' = k then some v else lookupMap rest k

/-- Insert-or-replace in the Go map model (`m[k] = v`). -/
def mapInsert : List (Str × ResultFile) → Str → ResultFile → List (Str × ResultFile)
  | [], k, v => [(k, v)]
  | (k', v') :: rest, k, v =>
    if k' = k then (k', v) :: rest else (k', v') :: mapInsert rest k v

/-- The values of the Go map model, in entry order. -/
def valuesOf (m : List (Str × ResultFile)) : List ResultFile := m.map (·.2)

/-- `ProcessingState.IsFileProcessed`: membership query on the map. -/
def IsFileProcessed (ps : ProcessingState) (filePath : Str) : Bool :=
  (lookupMap ps.ProcessedFiles filePath).isSome

/-! ## Encode path (`updateReport`, `formatObsidianLink`) -/

/-- Lexicographic `<` on Go strings (byte order of UTF-8 agrees with
code-point order), as used by `sort.Strings` and the `sort.Slice`
comparators in `updateReport`. -/
def strLt : Str → Str → Bool
  | [], [] => false
  | [], _ :: _ => true
  | _ :: _, [] => false
  | a :: as, b :: bs =>
    if a < b then true else if b < a then false else strLt as bs

/-- Insertion step for `sortByPath`. -/
def insertByPathLt (f : ResultFile) : List ResultFile → List ResultFile
  | [] => [f]
  | g :: rest =>
    if strLt f.Path g.Path then f :: g :: rest else g :: insertByPathLt f rest

/-- Model of `sort.Slice(files, func(i,j) …Path < …Path)` in
`updateReport`.  On all inputs in scope the paths are pairwise
distinct, so the sorted order is unique and algorithm-independent. -/
def sortByPath (l : List ResultFile) : List ResultFile :=
  l.foldr insertByPathLt []

/-- Insertion step for `sortStrings`. -/
def insertStrLe (s : Str) : List Str → List Str
  | [] => [s]
  | t :: rest => if strLt s t then s :: t :: rest else t :: insertStrLe s rest

/-- Model of `sort.Strings(classTypes)` in `updateReport`. -/
def sortStrings (l : List Str) : List Str := l.foldr insertStrLe []

/-- `formatObsidianLink(targetFolder, filePath)`: relative path (with
base-name fallback), extension stripped, separators to forward slash,
wrapped in `[[ ]]`. -/
def formatObsidianLink (targetFolder filePath : Str) : Str :=
  let relPath := filepathRelModel targetFolder filePath
  let baseName := goTrimSuffix relPath (filepathExt relPath)
  let baseName2 := replaceAllChar baseName '/' '/'
  str "[[" ++ baseName2 ++ str "]]"

/-- The per-label accumulator built by the categorisation loop of
`updateReport` (`emptyFiles`, `frontmatterOnlyFiles`,
`classificationMap`).  The Go map `classificationMap` is modelled as an
association list whose key order is first-insertion order. -/
structure Categorized where
  emptyFiles : List ResultFile
  frontmatterOnlyFiles : List ResultFile
  classificationMap : List (Str × List ResultFile)
deriving DecidableEq, Repr

/-- `classificationMap[classStr] = append(classificationMap[classStr], file)`
on the association-list model of the Go map. -/
def appendAt : List (Str × List ResultFile) → Str → ResultFile → List (Str × List ResultFile)
  | [], k, v => [(k, [v])]
  | (k', vs) :: rest, k, v =>
    if k' = k then (k', vs ++ [v]) :: rest else (k', vs) :: appendAt rest k v

/-- Lookup in the classification map (`classificationMap[classType]`),
`nil` for an absent key. -/
def classLookup : List (Str × List ResultFile) → Str → List ResultFile
  | [], _ => []
  | (k', vs) :: rest, k => if k' = k then vs else classLookup rest k

/-- One iteration of the categorisation loop of `updateReport`
(lines guarded by the `if/else if` chain on `file.Status` and
`file.Classification`). -/
def categorizeStep (acc : Categorized) (file : ResultFile) : Categorized :=
  if file.Status = StatusEmpty then
    { acc with emptyFiles := acc.emptyFiles ++ [file] }
  else if file.Status = StatusFrontmatterOnly then
    { acc with frontmatterOnlyFiles := acc.frontmatterOnlyFiles ++ [file] }
  else if file.Classification ≠ [] then
    { acc with classificationMap := appendAt acc.classificationMap file.Classification file }
  else acc

/-- The categorisation loop of `updateReport`, ranging over the map
values in the order given by `files`. -/
def categorize (files : List ResultFile) : Categorized :=
  files.foldl categorizeStep ⟨[], [], []⟩

/-- The entry lines of one report section:
`content.WriteString(fmt.Sprintf("- %s\n", link))` for each file. -/
def entryLines (targetFolder : Str) (files : List ResultFile) : Str :=
  files.foldl
    (fun acc file =>
      acc ++ (str "- " ++ formatObsidianLink targetFolder file.Path ++ str "\n"))
    []

/-- The per-classification statistics lines of `updateReport`
(`for classType, classFiles := range classificationMap`), emitted in
the order of the association list, which stands for one particular
iteration order of the Go map. -/
def statsLines (m : List (Str × List ResultFile)) : Str :=
  m.foldl
    (fun acc p =>
      acc ++ (str "- " ++ p.1 ++ str " files: " ++ natChars p.2.length ++ str "\n"))
    []

/-- The dynamically named classification sections of `updateReport`:
one `## <Label> Files` section per distinct label, in label-sorted
order. -/
def classSections (targetFolder : Str) (m : List (Str × List ResultFile)) : Str :=
  (sortStrings (m.map (·.1))).foldl
    (fun acc classType =>
      let classFiles := classLookup m classType
      acc ++ ((str "## " ++ classType ++ str " Files\n\n")
        ++ (if classFiles.length = 0 then
              str "No " ++ toLowerStr classType ++ str " files found.\n\n"
            else entryLines targetFolder (sortByPath classFiles) ++ str "\n")))
    []

/-- The full report text generated by `updateReport`, given the target
folder, the formatted timestamp (the source formats `time.Now()`; the
timestamp is irrelevant to every property below) and the sequence of
map values in iteration order. -/
def reportContent (targetFolder ts : Str) (files : List ResultFile) : Str :=
  let c := categorize files
  str "# Vault Quality Report\n\n"
  ++ (str "Generated on: " ++ ts ++ str "\n\n")
  ++ (str "Target folder: `" ++ targetFolder ++ str "`\n\n")
  ++ str "## Statistics\n\n"
  ++ (str "- Total files processed: " ++ natChars files.length ++ str "\n")
  ++ (str "- Empty files: " ++ natChars c.emptyFiles.length ++ str "\n")
  ++ (str "- Files with frontmatter only: " ++ natChars c.frontmatterOnlyFiles.length ++ str "\n")
  ++ statsLines c.classificationMap
  ++ str "\n"
  ++ str "## Empty Files\n\n"
  ++ (if c.emptyFiles.length = 0 then str "No empty files found.\n\n"
      else entryLines targetFolder (sortByPath c.emptyFiles) ++ str "\n")
  ++ str "## Files with Frontmatter Only\n\n"
  ++ (if c.frontmatterOnlyFiles.length = 0 then
        str "No files with frontmatter only found.\n\n"
      else entryLines targetFolder (sortByPath c.frontmatterOnlyFiles) ++ str "\n")
  ++ classSections targetFolder c.classificationMap

/-! ## Decode path (`loadExistingReport`, `convertObsidianLinkToPath`) -/

/-- The capture attempt of the regex `\[\[([^\]]+)\]\]` at a position
right after a `[[`: a nonempty run of non-`]` characters followed by
`]]`. -/
def matchLinkAt (cs : Str) : Option Str :=
  let body := cs.takeWhile (· ≠ ']')
  if body = [] then none
  else
    match cs.drop body.length with
    | ']' :: ']' :: _ => some body
    | _ => none

/-- `regexp.FindStringSubmatch` for `\[\[([^\]]+)\]\]`: scan for the
leftmost `[[` from which a capture succeeds, returning the first
capture group. -/
def findLinkAux : Str → Option Str
  | [] => none
  | [_] => none
  | c1 :: c2 :: rest =>
    if c1 = '[' ∧ c2 = '[' then
      match matchLinkAt rest with
      | some body => some body
      | none => findLinkAux (c2 :: rest)
    else findLinkAux (c2 :: rest)

/-- `convertObsidianLinkToPath`: forward slashes to the runtime path
separator, then `filepath.Join(ps.TargetFolder, pathWithoutExt+".md")`. -/
def convertObsidianLinkToPath (targetFolder obsidianLink : Str) : Str :=
  let pathWithoutExt := replaceAllChar obsidianLink '/' '/'
  filepathJoin targetFolder (pathWithoutExt ++ str ".md")

/-- The record fields chosen by the `switch currentSection` of
`loadExistingReport`, as `(classification, status)`. -/
def sectionFields (currentSection : Str) : Str × Str :=
  if currentSection = str "Empty Files" then (str "Empty", StatusEmpty)
  else if currentSection = str "Files with Frontmatter Only" then
    (str "Low quality", StatusFrontmatterOnly)
  else if (str " Files").isSuffixOf currentSection then
    (goTrimSuffix currentSection (str " Files"), StatusNeedsReview)
  else (currentSection, StatusNeedsReview)

/-- One iteration of the line loop of `loadExistingReport`; the state
is the current section heading and the processed-files map. -/
def decodeLineStep (targetFolder : Str) (st : Str × List (Str × ResultFile))
    (line : Str) : Str × List (Str × ResultFile) :=
  if (str "## ").isPrefixOf line then (line.drop 3, st.2)
  else if (str "- [[").isPrefixOf line ∧ st.1 ≠ [] then
    match findLinkAux line with
    | some obsidianLink =>
      let filePath := convertObsidianLinkToPath targetFolder obsidianLink
      let fields := sectionFields st.1
      (st.1, mapInsert st.2 filePath ⟨filePath, fields.2, fields.1⟩)
    | none => st
  else st

/-- `loadExistingReport` on the text of the report: the populated
processed-files map. -/
def loadReport (targetFolder content : Str) : List (Str × ResultFile) :=
  ((splitNl content).foldl (decodeLineStep targetFolder) ([], [])).2

/-! ## Line algebra: `splitNl` over concatenations of newline-terminated
chunks -/

theorem splitNl_ne_nil (s : Str) : splitNl s ≠ [] := by
  induction s with
  | nil => simp [splitNl]
  | cons c cs ih =>
    by_cases hc : c = '\n'
    · simp [splitNl, hc]
    · simp only [splitNl, if_neg hc]
      cases h : splitNl cs with
      | nil => exact absurd h ih
      | cons l ls => simp

theorem splitNl_no_nl {s : Str} (h : '\n' ∉ s) : splitNl s = [s] := by
  induction s with
  | nil => rfl
  | cons c cs ih =>
    simp only [List.mem_cons, not_or] at h
    have hc : ¬ c = '\n' := fun hc => h.1 hc.symm
    simp only [splitNl, if_neg hc, ih h.2]

theorem splitNl_append_of {a : Str} {La : List Str}
    (ha : splitNl a = La ++ [[]]) (b : Str) :
    splitNl (a ++ b) = La ++ splitNl b := by
  induction a generalizing La with
  | nil =>
    have : La = [] := by
      cases La with
      | nil => rfl
      | cons x xs =>
        simp only [splitNl, List.cons_append, List.cons.injEq] at ha
        exact absurd ha.2.symm (by simp)
    simp [this]
  | cons c cs ih =>
    by_cases hc : c = '\n'
    · simp only [splitNl, if_pos hc] at ha
      cases La with
      | nil =>
        simp only [List.nil_append, List.cons.injEq] at ha
        exact absurd ha.2 (splitNl_ne_nil cs)
      | cons x xs =>
        simp only [List.cons_append, List.cons.injEq] at ha
        have hih := ih ha.2
        simp only [List.cons_append, splitNl, if_pos hc, ← ha.1]
        simpa using hih
    · simp only [splitNl, if_neg hc] at ha
      cases hcs : splitNl cs with
      | nil => exact absurd hcs (splitNl_ne_nil cs)
      | cons l ls =>
        rw [hcs] at ha
        cases La with
        | nil =>
          simp only [List.nil_append, List.cons.injEq] at ha
          exact absurd ha.1 (List.cons_ne_nil c l)
        | cons x xs =>
          simp only [List.cons_append, List.cons.injEq] at ha
          obtain ⟨hx, hrest⟩ := ha
          have hcs' : splitNl cs = (l :: xs) ++ [[]] := by
            rw [hcs, hrest]; simp
          have hih := ih hcs'
          simp [splitNl, if_neg hc, hih, ← hx]

/-- `a` is a newline-terminated chunk whose lines are `L`. -/
def NlLines (a : Str) (L : List Str) : Prop := splitNl a = L ++ [[]]

theorem nlLines_nil : NlLines [] [] := rfl

theorem nlLines_append {a b : Str} {La Lb : List Str}
    (ha : NlLines a La) (hb : NlLines b Lb) : NlLines (a ++ b) (La ++ Lb) := by
  unfold NlLines at *
  rw [splitNl_append_of ha, hb, List.append_assoc]

theorem splitNl_line {l : Str} (h : '\n' ∉ l) (rest : Str) :
    splitNl (l ++ '\n' :: rest) = l :: splitNl rest := by
  induction l with
  | nil => simp [splitNl]
  | cons c cs ih =>
    simp only [List.mem_cons, not_or] at h
    have hc : ¬ c = '\n' := fun hc => h.1 hc.symm
    rw [List.cons_append]
    simp [splitNl, if_neg hc, ih h.2]

theorem nlLines_single {l : Str} (h : '\n' ∉ l) : NlLines (l ++ ['\n']) [l] := by
  unfold NlLines
  have := splitNl_line h []
  simpa [splitNl] using this

theorem nlLines_flatten {α} {g : α → Str} {lines : α → Str} :
    ∀ l : List α, (∀ x ∈ l, NlLines (g x) [lines x]) →
      NlLines ((l.map g).flatten) (l.map lines) := by
  intro l
  induction l with
  | nil => intro _; exact nlLines_nil
  | cons x xs ih =>
    intro h
    simp only [List.map_cons, List.flatten_cons]
    exact nlLines_append (h x (by simp)) (ih (fun y hy => h y (by simp [hy])))

/-! ## Decimal digits -/

theorem natCharsCore_mem {P : Char → Prop}
    (hP : ∀ d : Nat, d < 10 → P (Char.ofNat (48 + d))) :
    ∀ fuel n acc, (∀ c ∈ acc, P c) → ∀ c ∈ natCharsCore fuel n acc, P c := by
  intro fuel
  induction fuel with
  | zero => intro n acc hacc c hc; exact hacc c hc
  | succ fuel ih =>
    intro n acc hacc c hc
    simp only [natCharsCore] at hc
    split at hc
    · rw [List.mem_cons] at hc
      rcases hc with h | h
      · exact h ▸ hP (n % 10) (Nat.mod_lt _ (by norm_num))
      · exact hacc c h
    · refine ih (n / 10) _ ?_ c hc
      intro c' hc'
      rw [List.mem_cons] at hc'
      rcases hc' with h | h
      · exact h ▸ hP (n % 10) (Nat.mod_lt _ (by norm_num))
      · exact hacc c' h

theorem natChars_mem {P : Char → Prop}
    (hP : ∀ d : Nat, d < 10 → P (Char.ofNat (48 + d))) {n : Nat} :
    ∀ c ∈ natChars n, P c :=
  natCharsCore_mem hP (n + 1) n [] (by simp)

theorem nl_not_mem_natChars (n : Nat) : '\n' ∉ natChars n := by
  intro h
  have := natChars_mem (P := fun c => c ≠ '\n') ?_ '\n' h
  · exact this rfl
  · intro d hd
    interval_cases d <;> decide

/-! ## Fold normalisation for the string-building loops -/

theorem foldl_append_fn {α} (g : α → Str) :
    ∀ (l : List α) (init : Str),
      l.foldl (fun acc x => acc ++ g x) init = init ++ (l.map g).flatten := by
  intro l
  induction l with
  | nil => intro init; simp
  | cons x xs ih => intro init; simp [ih, List.append_assoc]

theorem entryLines_eq (targetFolder : Str) (files : List ResultFile) :
    entryLines targetFolder files
      = (files.map
          (fun f => str "- " ++ formatObsidianLink targetFolder f.Path ++ str "\n")).flatten := by
  unfold entryLines
  rw [foldl_append_fn]
  simp

theorem statsLines_eq (m : List (Str × List ResultFile)) :
    statsLines m
      = (m.map
          (fun p => str "- " ++ p.1 ++ str " files: " ++ natChars p.2.length ++ str "\n")).flatten := by
  have := foldl_append_fn
    (fun p : Str × List ResultFile =>
      str "- " ++ p.1 ++ str " files: " ++ natChars p.2.length ++ str "\n") m []
  simpa [statsLines] using this

/-! ## Well-formed paths and the link round trip -/

/-- The path of a document with relative stem `stem` under `root`. -/
def pathOf (root stem : Str) : Str := root ++ '/' :: (stem ++ str ".md")

/-- A path the scanner can produce: a `.md` file strictly below the
target folder whose stem is nonempty and free of `']'` and newlines. -/
def WfPath (root p : Str) : Prop :=
  ∃ stem, p = pathOf root stem ∧ stem ≠ [] ∧ ']' ∉ stem ∧ '\n' ∉ stem

theorem replaceAllChar_self (s : Str) (c : Char) : replaceAllChar s c c = s := by
  unfold replaceAllChar
  have h : (fun x => if x = c then c else x) = id := by
    funext x; by_cases hx : x = c <;> simp [hx]
  rw [h, List.map_id]

theorem filepathExt_md (stem : Str) : filepathExt (stem ++ str ".md") = str ".md" := by
  unfold filepathExt
  rw [List.reverse_append]
  have hrev : (str ".md").reverse = ['d', 'm', '.'] := rfl
  rw [hrev]
  simp [filepathExtAux, str]

theorem goTrimSuffix_append (s suffix : Str) :
    goTrimSuffix (s ++ suffix) suffix = s := by
  unfold goTrimSuffix
  rw [if_pos (List.isSuffixOf_iff_suffix.mpr ⟨s, rfl⟩)]
  rw [List.take_left' (by simp)]

theorem formatObsidianLink_wf (root stem : Str) :
    formatObsidianLink root (pathOf root stem) = str "[[" ++ stem ++ str "]]" := by
  have hpre : (root ++ ['/']).isPrefixOf (root ++ '/' :: (stem ++ str ".md")) = true := by
    refine List.isPrefixOf_iff_prefix.mpr ⟨stem ++ str ".md", ?_⟩
    simp
  have hdrop : (root ++ '/' :: (stem ++ str ".md")).drop (root.length + 1)
      = stem ++ str ".md" := by
    have h2 : root ++ '/' :: (stem ++ str ".md") = (root ++ ['/']) ++ (stem ++ str ".md") := by
      simp
    rw [h2, List.drop_left' (by simp)]
  simp only [formatObsidianLink, pathOf, filepathRelModel]
  rw [if_pos hpre, hdrop, filepathExt_md, goTrimSuffix_append, replaceAllChar_self]

/-! ## The regex capture on entry lines -/

theorem takeWhile_app_rb {l : Str} (h : ']' ∉ l) (r : Str) :
    (l ++ ']' :: r).takeWhile (· ≠ ']') = l := by
  induction l with
  | nil => simp [List.takeWhile_cons]
  | cons c cs ih =>
    simp only [List.mem_cons, not_or] at h
    have hc : ¬ c = ']' := fun hc => h.1 hc.symm
    simp only [List.cons_append, List.takeWhile_cons]
    rw [if_pos (by simp [hc])]
    rw [ih h.2]

theorem matchLinkAt_entry {stem : Str} (hne : stem ≠ []) (hnb : ']' ∉ stem) (r : Str) :
    matchLinkAt (stem ++ ']' :: ']' :: r) = some stem := by
  unfold matchLinkAt
  rw [takeWhile_app_rb hnb]
  rw [if_neg hne]
  rw [List.drop_left stem (']' :: ']' :: r)]
  rfl

theorem findLinkAux_entry {stem : Str} (hne : stem ≠ []) (hnb : ']' ∉ stem) :
    findLinkAux (str "- [[" ++ stem ++ str "]]") = some stem := by
  have hshape : str "- [[" ++ stem ++ str "]]"
      = '-' :: ' ' :: '[' :: '[' :: (stem ++ ']' :: ']' :: []) := by
    simp [str]
  rw [hshape]
  have h1 : findLinkAux ('-' :: ' ' :: '[' :: '[' :: (stem ++ ']' :: ']' :: []))
      = findLinkAux (' ' :: '[' :: '[' :: (stem ++ ']' :: ']' :: [])) := by
    simp only [findLinkAux]
    rw [if_neg (by decide)]
  have h2 : findLinkAux (' ' :: '[' :: '[' :: (stem ++ ']' :: ']' :: []))
      = findLinkAux ('[' :: '[' :: (stem ++ ']' :: ']' :: [])) := by
    simp only [findLinkAux]
    rw [if_neg (by decide)]
  rw [h1, h2]
  simp only [findLinkAux]
  rw [if_pos (by constructor <;> trivial)]
  rw [matchLinkAt_entry hne hnb]

/-! ## Inert lines for the decoder -/

/-- A report line that neither changes the current section nor parses
as an entry. -/
def InertLine (line : Str) : Prop :=
  ¬ ((str "## ").isPrefixOf line = true) ∧ ¬ ((str "- [[").isPrefixOf line = true)

instance (line : Str) : Decidable (InertLine line) := by
  unfold InertLine
  infer_instance

theorem decodeStep_inert {root : Str} (st : Str × List (Str × ResultFile)) {line : Str}
    (h : InertLine line) : decodeLineStep root st line = st := by
  unfold decodeLineStep
  rw [if_neg h.1, if_neg (fun hc => h.2 hc.1)]

theorem foldl_decode_inert {root : Str} {L : List Str} (h : ∀ l ∈ L, InertLine l)
    (st : Str × List (Str × ResultFile)) :
    L.foldl (decodeLineStep root) st = st := by
  induction L with
  | nil => rfl
  | cons l ls ih =>
    simp only [List.foldl_cons]
    rw [decodeStep_inert st (h l (by simp))]
    exact ih (fun l' hl' => h l' (by simp [hl']))

theorem inert_blank : InertLine [] := by constructor <;> simp [str, List.isPrefixOf]

theorem inert_cons {c : Char} (rest : Str) (h1 : c ≠ '#') (h2 : c ≠ '-') :
    InertLine (c :: rest) := by
  have h1' : ¬ ('#' = c) := fun hc => h1 hc.symm
  have h2' : ¬ ('-' = c) := fun hc => h2 hc.symm
  constructor
  · simp [str, List.isPrefixOf, h1']
  · simp [str, List.isPrefixOf, h2']

theorem inert_dash {c : Char} (rest : Str) (h : c ≠ '[') :
    InertLine ('-' :: ' ' :: c :: rest) := by
  have h' : ¬ ('[' = c) := fun hc => h hc.symm
  constructor
  · simp [str, List.isPrefixOf]
  · simp [str, List.isPrefixOf, h']

theorem inert_dash2 {c : Char} (rest : Str) (h : c ≠ '[') :
    InertLine ('-' :: ' ' :: '[' :: c :: rest) := by
  have h' : ¬ ('[' = c) := fun hc => h hc.symm
  constructor
  · simp [str, List.isPrefixOf]
  · simp [str, List.isPrefixOf, h']

theorem inert_dash_label {L t : Str} (h : ¬ ((str "[[").isPrefixOf L = true)) :
    InertLine ('-' :: ' ' :: (L ++ ' ' :: t)) := by
  cases L with
  | nil => exact inert_dash _ (by decide)
  | cons a L' =>
    by_cases ha : a = '['
    · cases L' with
      | nil =>
        subst ha
        exact inert_dash2 _ (by decide)
      | cons b L'' =>
        have hb : b ≠ '[' := by
          intro hb
          apply h
          subst ha hb
          simp [str, List.isPrefixOf]
        subst ha
        exact inert_dash2 _ hb
    · exact inert_dash _ ha

/-! ## Decoding headings and entry lines -/

theorem decode_heading {root : Str} (st : Str × List (Str × ResultFile)) (rest : Str) :
    decodeLineStep root st (str "## " ++ rest) = (rest, st.2) := by
  unfold decodeLineStep
  rw [if_pos (List.isPrefixOf_iff_prefix.mpr ⟨rest, rfl⟩)]
  rw [List.drop_left' (show (str "## ").length = 3 from rfl)]

/-- `convertObsidianLinkToPath` recovers exactly the path of the stem. -/
theorem convert_eq_pathOf (root stem : Str) :
    convertObsidianLinkToPath root stem = pathOf root stem := by
  unfold convertObsidianLinkToPath filepathJoin pathOf
  rw [replaceAllChar_self]

/-- The record inserted by the decoder for an entry of section `sec`. -/
def sectionRecord (sec p : Str) : ResultFile :=
  ⟨p, (sectionFields sec).2, (sectionFields sec).1⟩

theorem decode_entry {root sec : Str} (m : List (Str × ResultFile)) {stem : Str}
    (hsec : sec ≠ []) (hne : stem ≠ []) (hnb : ']' ∉ stem) :
    decodeLineStep root (sec, m) (str "- [[" ++ stem ++ str "]]")
      = (sec, mapInsert m (pathOf root stem) (sectionRecord sec (pathOf root stem))) := by
  unfold decodeLineStep
  rw [if_neg]
  · rw [if_pos]
    · rw [findLinkAux_entry hne hnb]
      dsimp only
      rw [convert_eq_pathOf]
      rfl
    · exact ⟨List.isPrefixOf_iff_prefix.mpr ⟨stem ++ str "]]", by simp⟩, hsec⟩
  · intro hcontra
    rw [List.isPrefixOf_iff_prefix] at hcontra
    obtain ⟨t, ht⟩ := hcontra
    have h3 := congrArg (fun l => l.head?) ht
    simp [str] at h3

theorem sectionFields_empty :
    sectionFields (str "Empty Files") = (str "Empty", StatusEmpty) := by rfl

theorem sectionFields_fm :
    sectionFields (str "Files with Frontmatter Only")
      = (str "Low quality", StatusFrontmatterOnly) := by rfl

theorem sectionFields_dyn (ct : Str) :
    sectionFields (ct ++ str " Files")
      = (ct, if ct = str "Empty" then StatusEmpty else StatusNeedsReview) := by
  by_cases hct : ct = str "Empty"
  · subst hct
    rw [if_pos rfl]
    rfl
  · rw [if_neg hct]
    have h1 : ¬ (ct ++ str " Files" = str "Empty Files") := by
      intro h
      apply hct
      have h' : ct ++ str " Files" = str "Empty" ++ str " Files" := by
        rw [h]; rfl
      exact List.append_cancel_right h'
    have h2 : ¬ (ct ++ str " Files" = str "Files with Frontmatter Only") := by
      intro h
      have hlast := congrArg List.getLast? h
      rw [List.getLast?_append] at hlast
      have e1 : (str " Files").getLast? = some 's' := rfl
      have e2 : (str "Files with Frontmatter Only").getLast? = some 'y' := rfl
      rw [e1, e2] at hlast
      simp at hlast
    have hsuf : (str " Files").isSuffixOf (ct ++ str " Files") = true :=
      List.isSuffixOf_iff_suffix.mpr ⟨ct, rfl⟩
    unfold sectionFields
    rw [if_neg h1, if_neg h2, if_pos hsuf, goTrimSuffix_append]

/-- One rendered entry line (without its newline). -/
def entryLine (root : Str) (f : ResultFile) : Str :=
  str "- " ++ formatObsidianLink root f.Path

theorem foldl_decode_entries {root sec : Str} (hsec : sec ≠ []) :
    ∀ fs : List ResultFile, (∀ f ∈ fs, WfPath root f.Path) →
      ∀ m, (fs.map (entryLine root)).foldl (decodeLineStep root) (sec, m)
        = (sec, fs.foldl (fun acc f => mapInsert acc f.Path (sectionRecord sec f.Path)) m) := by
  intro fs
  induction fs with
  | nil => intro _ m; rfl
  | cons f fs' ih =>
    intro hwf m
    obtain ⟨stem, hp, hne, hnb, _⟩ := hwf f (by simp)
    simp only [List.map_cons, List.foldl_cons]
    have hline : entryLine root f = str "- [[" ++ stem ++ str "]]" := by
      unfold entryLine
      rw [hp, formatObsidianLink_wf]
      simp [str]
    rw [hline, decode_entry m hsec hne hnb, ← hp]
    exact ih (fun g hg => hwf g (by simp [hg])) _

/-! ## Characterising the categorisation loop -/

/-- The first branch of the chain: structurally-empty records. -/
def isEmptyStatus (f : ResultFile) : Bool := decide (f.Status = StatusEmpty)

/-- The second branch: frontmatter-only records. -/
def isFmStatus (f : ResultFile) : Bool :=
  decide (¬ f.Status = StatusEmpty ∧ f.Status = StatusFrontmatterOnly)

/-- The third branch: classified records (non-reserved status, nonempty
label). -/
def isClassified (f : ResultFile) : Bool :=
  decide (¬ f.Status = StatusEmpty ∧ ¬ f.Status = StatusFrontmatterOnly
    ∧ f.Classification ≠ [])

/-- The silent fourth branch: records rendered in no section. -/
def isDropped (f : ResultFile) : Bool :=
  decide (¬ f.Status = StatusEmpty ∧ ¬ f.Status = StatusFrontmatterOnly
    ∧ f.Classification = [])

/-- Records of the third branch carrying the label `ct`. -/
def isClassifiedAs (ct : Str) (f : ResultFile) : Bool :=
  decide (¬ f.Status = StatusEmpty ∧ ¬ f.Status = StatusFrontmatterOnly
    ∧ f.Classification ≠ [] ∧ f.Classification = ct)

theorem statusFm_ne_statusEmpty : StatusFrontmatterOnly ≠ StatusEmpty := by decide

theorem statusEmpty_ne_statusFm : StatusEmpty ≠ StatusFrontmatterOnly := by decide

theorem cat_emptyFiles_aux :
    ∀ (files : List ResultFile) (acc : Categorized),
      (files.foldl categorizeStep acc).emptyFiles
        = acc.emptyFiles ++ files.filter isEmptyStatus := by
  intro files
  induction files with
  | nil => intro acc; simp
  | cons f fs ih =>
    intro acc
    simp only [List.foldl_cons, List.filter_cons]
    by_cases h1 : f.Status = StatusEmpty
    · rw [ih]; simp [categorizeStep, isEmptyStatus, h1]
    · by_cases h2 : f.Status = StatusFrontmatterOnly
      · rw [ih]; simp [categorizeStep, isEmptyStatus, h1, h2, statusFm_ne_statusEmpty]
      · by_cases h3 : f.Classification = []
        · rw [ih]; simp [categorizeStep, isEmptyStatus, h1, h2, h3]
        · rw [ih]; simp [categorizeStep, isEmptyStatus, h1, h2, h3]

theorem cat_fmFiles_aux :
    ∀ (files : List ResultFile) (acc : Categorized),
      (files.foldl categorizeStep acc).frontmatterOnlyFiles
        = acc.frontmatterOnlyFiles ++ files.filter isFmStatus := by
  intro files
  induction files with
  | nil => intro acc; simp
  | cons f fs ih =>
    intro acc
    simp only [List.foldl_cons, List.filter_cons]
    by_cases h1 : f.Status = StatusEmpty
    · rw [ih]; simp [categorizeStep, isFmStatus, h1]
    · by_cases h2 : f.Status = StatusFrontmatterOnly
      · rw [ih]; simp [categorizeStep, isFmStatus, h1, h2, statusFm_ne_statusEmpty]
      · by_cases h3 : f.Classification = []
        · rw [ih]; simp [categorizeStep, isFmStatus, h1, h2, h3]
        · rw [ih]; simp [categorizeStep, isFmStatus, h1, h2, h3]

theorem classLookup_appendAt_same (m : List (Str × List ResultFile)) (k : Str)
    (v : ResultFile) : classLookup (appendAt m k v) k = classLookup m k ++ [v] := by
  induction m with
  | nil => simp [appendAt, classLookup]
  | cons p rest ih =>
    obtain ⟨k', vs⟩ := p
    by_cases h : k' = k
    · simp [appendAt, classLookup, h]
    · simp [appendAt, classLookup, h, ih]

theorem classLookup_appendAt_ne (m : List (Str × List ResultFile)) {k k' : Str}
    (v : ResultFile) (h : k ≠ k') :
    classLookup (appendAt m k v) k' = classLookup m k' := by
  induction m with
  | nil => simp [appendAt, classLookup, h]
  | cons p rest ih =>
    obtain ⟨k'', vs⟩ := p
    by_cases h2 : k'' = k
    · subst h2
      simp [appendAt, classLookup, h]
    · by_cases h3 : k'' = k'
      · simp [appendAt, classLookup, h2, h3, Ne.symm h]
      · simp [appendAt, classLookup, h2, h3, ih]

theorem cat_classLookup_aux :
    ∀ (files : List ResultFile) (acc : Categorized) (ct : Str),
      classLookup (files.foldl categorizeStep acc).classificationMap ct
        = classLookup acc.classificationMap ct ++ files.filter (isClassifiedAs ct) := by
  intro files
  induction files with
  | nil => intro acc ct; simp
  | cons f fs ih =>
    intro acc ct
    simp only [List.foldl_cons, List.filter_cons]
    by_cases h1 : f.Status = StatusEmpty
    · rw [ih]; simp [categorizeStep, isClassifiedAs, h1]
    · by_cases h2 : f.Status = StatusFrontmatterOnly
      · rw [ih]; simp [categorizeStep, isClassifiedAs, h1, h2, statusFm_ne_statusEmpty]
      · by_cases h3 : f.Classification = []
        · rw [ih]; simp [categorizeStep, isClassifiedAs, h1, h2, h3]
        · by_cases h4 : f.Classification = ct
          · rw [ih]
            simp only [categorizeStep, if_neg h1, if_neg h2, if_pos (by exact h3)]
            rw [show (isClassifiedAs ct f) = true by
              simp [isClassifiedAs, h1, h2, h4, h4 ▸ h3]]
            simp only [ite_true]
            rw [h4, classLookup_appendAt_same]
            simp
          · rw [ih]
            simp only [categorizeStep, if_neg h1, if_neg h2, if_pos (by exact h3)]
            rw [show (isClassifiedAs ct f) = false by
              simp [isClassifiedAs, h1, h2, h3, h4]]
            simp only [Bool.false_eq_true, ite_false]
            rw [classLookup_appendAt_ne _ _ h4]

theorem keys_appendAt (m : List (Str × List ResultFile)) (k : Str) (v : ResultFile) :
    (appendAt m k v).map (·.1)
      = if k ∈ m.map (·.1) then m.map (·.1) else m.map (·.1) ++ [k] := by
  induction m with
  | nil => simp [appendAt]
  | cons p rest ih =>
    obtain ⟨k', vs⟩ := p
    by_cases h : k' = k
    · subst h
      simp [appendAt]
    · by_cases hm : k ∈ rest.map (·.1)
      · simp [appendAt, h, ih, hm, Ne.symm h]
      · simp [appendAt, h, ih, hm, Ne.symm h]

theorem mem_keys_appendAt {m : List (Str × List ResultFile)} {k : Str}
    {v : ResultFile} {ct : Str} :
    ct ∈ (appendAt m k v).map (·.1) ↔ ct ∈ m.map (·.1) ∨ ct = k := by
  rw [keys_appendAt]
  by_cases h : k ∈ m.map (·.1)
  · rw [if_pos h]
    constructor
    · exact Or.inl
    · rintro (hc | rfl)
      · exact hc
      · exact h
  · rw [if_neg h]
    simp [List.mem_append]

theorem cat_keys_mem_aux :
    ∀ (files : List ResultFile) (acc : Categorized) (ct : Str),
      ct ∈ (files.foldl categorizeStep acc).classificationMap.map (·.1)
        ↔ (ct ∈ acc.classificationMap.map (·.1) ∨ ∃ f ∈ files, isClassifiedAs ct f) := by
  intro files
  induction files with
  | nil => intro acc ct; simp
  | cons f fs ih =>
    intro acc ct
    simp only [List.foldl_cons]
    rw [ih]
    by_cases h1 : f.Status = StatusEmpty
    · simp [categorizeStep, h1, isClassifiedAs]
    · by_cases h2 : f.Status = StatusFrontmatterOnly
      · simp [categorizeStep, h1, h2, statusFm_ne_statusEmpty, isClassifiedAs]
      · by_cases h3 : f.Classification = []
        · simp [categorizeStep, h1, h2, h3, isClassifiedAs]
        · have hiff : isClassifiedAs ct f = true ↔ ct = f.Classification := by
            simp [isClassifiedAs, h1, h2, h3, eq_comm]
          simp only [categorizeStep, if_neg h1, if_neg h2, if_pos (by exact h3),
            mem_keys_appendAt, List.mem_cons]
          constructor
          · rintro ((hacc | hk) | hrest)
            · exact Or.inl hacc
            · exact Or.inr ⟨f, Or.inl rfl, hiff.mpr hk⟩
            · obtain ⟨g, hg, hgc⟩ := hrest
              exact Or.inr ⟨g, Or.inr hg, hgc⟩
          · rintro (hacc | ⟨g, hg | hg, hgc⟩)
            · exact Or.inl (Or.inl hacc)
            · exact Or.inl (Or.inr (hiff.mp (hg ▸ hgc)))
            · exact Or.inr ⟨g, hg, hgc⟩

theorem keys_nodup_appendAt {m : List (Str × List ResultFile)} {k : Str}
    {v : ResultFile} (h : (m.map (·.1)).Pairwise (· ≠ ·)) :
    ((appendAt m k v).map (·.1)).Pairwise (· ≠ ·) := by
  rw [keys_appendAt]
  by_cases hm : k ∈ m.map (·.1)
  · rwa [if_pos hm]
  · rw [if_neg hm]
    refine List.pairwise_append.mpr ⟨h, by simp, ?_⟩
    intro a ha b hb
    simp only [List.mem_singleton] at hb
    subst hb
    exact fun hc => hm (hc ▸ ha)

theorem cat_keys_nodup_aux :
    ∀ (files : List ResultFile) (acc : Categorized),
      (acc.classificationMap.map (·.1)).Pairwise (· ≠ ·) →
      ((files.foldl categorizeStep acc).classificationMap.map (·.1)).Pairwise (· ≠ ·) := by
  intro files
  induction files with
  | nil => intro acc h; exact h
  | cons f fs ih =>
    intro acc h
    simp only [List.foldl_cons]
    apply ih
    by_cases h1 : f.Status = StatusEmpty
    · simpa [categorizeStep, h1] using h
    · by_cases h2 : f.Status = StatusFrontmatterOnly
      · simpa [categorizeStep, h1, h2, statusFm_ne_statusEmpty] using h
      · by_cases h3 : f.Classification = []
        · simpa [categorizeStep, h1, h2, h3] using h
        · simp only [categorizeStep, if_neg h1, if_neg h2, if_pos (by exact h3)]
          exact keys_nodup_appendAt h

theorem flatten_appendAt_perm (m : List (Str × List ResultFile)) (k : Str)
    (v : ResultFile) :
    ((appendAt m k v).map (·.2)).flatten.Perm ((m.map (·.2)).flatten ++ [v]) := by
  induction m with
  | nil => simp [appendAt]
  | cons p rest ih =>
    obtain ⟨k', vs⟩ := p
    by_cases h : k' = k
    · subst h
      have e : appendAt ((k', vs) :: rest) k' v = (k', vs ++ [v]) :: rest := by
        simp [appendAt]
      rw [e]
      simp only [List.map_cons, List.flatten_cons, List.append_assoc]
      exact List.Perm.append_left vs List.perm_append_comm
    · have e : appendAt ((k', vs) :: rest) k v = (k', vs) :: appendAt rest k v := by
        simp [appendAt, h]
      rw [e]
      simp only [List.map_cons, List.flatten_cons, List.append_assoc]
      exact List.Perm.append_left vs ih

theorem cat_flatten_perm :
    ∀ (files : List ResultFile) (acc : Categorized),
      ((files.foldl categorizeStep acc).classificationMap.map (·.2)).flatten.Perm
        ((acc.classificationMap.map (·.2)).flatten ++ files.filter isClassified) := by
  intro files
  induction files with
  | nil => intro acc; simp
  | cons f fs ih =>
    intro acc
    simp only [List.foldl_cons, List.filter_cons]
    by_cases h1 : f.Status = StatusEmpty
    · rw [show isClassified f = false by simp [isClassified, h1]]
      simpa [categorizeStep, h1] using ih (categorizeStep acc f)
    · by_cases h2 : f.Status = StatusFrontmatterOnly
      · rw [show isClassified f = false by simp [isClassified, h1, h2]]
        simpa [categorizeStep, h1, h2, statusFm_ne_statusEmpty]
          using ih (categorizeStep acc f)
      · by_cases h3 : f.Classification = []
        · rw [show isClassified f = false by simp [isClassified, h1, h2, h3]]
          simpa [categorizeStep, h1, h2, h3] using ih (categorizeStep acc f)
        · rw [show isClassified f = true by simp [isClassified, h1, h2, h3]]
          simp only [ite_true]
          have hstep : (categorizeStep acc f).classificationMap
              = appendAt acc.classificationMap f.Classification f := by
            simp [categorizeStep, if_neg h1, if_neg h2, if_pos (by exact h3)]
          have t1 := ih (categorizeStep acc f)
          rw [hstep] at t1
          have t2 : (((appendAt acc.classificationMap f.Classification f).map
                (·.2)).flatten ++ fs.filter isClassified).Perm
              (((acc.classificationMap.map (·.2)).flatten ++ [f])
                ++ fs.filter isClassified) :=
            List.Perm.append_right _ (flatten_appendAt_perm _ _ _)
          have t3 := t1.trans t2
          simpa using t3

/-! ## Sorting is a permutation -/

theorem insertByPathLt_perm (f : ResultFile) (l : List ResultFile) :
    (insertByPathLt f l).Perm (f :: l) := by
  induction l with
  | nil => exact List.Perm.refl _
  | cons g rest ih =>
    unfold insertByPathLt
    by_cases h : strLt f.Path g.Path
    · rw [if_pos h]
    · rw [if_neg h]
      exact (ih.cons g).trans (List.Perm.swap f g rest)

theorem sortByPath_perm (l : List ResultFile) : (sortByPath l).Perm l := by
  induction l with
  | nil => exact List.Perm.refl _
  | cons f rest ih =>
    unfold sortByPath
    simp only [List.foldr_cons]
    exact (insertByPathLt_perm f _).trans (ih.cons f)

theorem insertStrLe_perm (s : Str) (l : List Str) :
    (insertStrLe s l).Perm (s :: l) := by
  induction l with
  | nil => exact List.Perm.refl _
  | cons t rest ih =>
    unfold insertStrLe
    by_cases h : strLt s t
    · rw [if_pos h]
    · rw [if_neg h]
      exact (ih.cons t).trans (List.Perm.swap s t rest)

theorem sortStrings_perm (l : List Str) : (sortStrings l).Perm l := by
  induction l with
  | nil => exact List.Perm.refl _
  | cons s rest ih =>
    unfold sortStrings
    simp only [List.foldr_cons]
    exact (insertStrLe_perm s _).trans (ih.cons s)

/-! ## Partitioning the records as the encoder renders them -/

theorem perm_insert_middle {α} {a : α} {X Y l : List α} (h : l.Perm (X ++ Y)) :
    (a :: l).Perm (X ++ a :: Y) :=
  (h.cons a).trans List.perm_middle.symm

theorem partition4_perm (files : List ResultFile) :
    files.Perm (files.filter isEmptyStatus ++ files.filter isFmStatus
      ++ files.filter isClassified ++ files.filter isDropped) := by
  induction files with
  | nil => simp
  | cons f fs ih =>
    by_cases h1 : f.Status = StatusEmpty
    · have e1 : isEmptyStatus f = true := by simp [isEmptyStatus, h1]
      have e2 : isFmStatus f = false := by simp [isFmStatus, h1]
      have e3 : isClassified f = false := by simp [isClassified, h1]
      have e4 : isDropped f = false := by simp [isDropped, h1]
      simp only [List.filter_cons, e1, e2, e3, e4, Bool.false_eq_true, if_true,
        if_false, ite_true, ite_false]
      simpa using ih.cons f
    · by_cases h2 : f.Status = StatusFrontmatterOnly
      · have e1 : isEmptyStatus f = false := by simp [isEmptyStatus, h1]
        have e2 : isFmStatus f = true := by
          simp [isFmStatus, h1, h2, statusFm_ne_statusEmpty]
        have e3 : isClassified f = false := by
          simp [isClassified, h1, h2, statusFm_ne_statusEmpty]
        have e4 : isDropped f = false := by
          simp [isDropped, h1, h2, statusFm_ne_statusEmpty]
        simp only [List.filter_cons, e1, e2, e3, e4, Bool.false_eq_true, if_true,
          if_false, ite_true, ite_false]
        have ih' : fs.Perm (fs.filter isEmptyStatus
            ++ (fs.filter isFmStatus ++ (fs.filter isClassified ++ fs.filter isDropped))) := by
          simpa [List.append_assoc] using ih
        have hmid := perm_insert_middle (a := f) ih'
        simpa [List.append_assoc] using hmid
      · by_cases h3 : f.Classification = []
        · have e1 : isEmptyStatus f = false := by simp [isEmptyStatus, h1]
          have e2 : isFmStatus f = false := by simp [isFmStatus, h1, h2]
          have e3 : isClassified f = false := by simp [isClassified, h1, h2, h3]
          have e4 : isDropped f = true := by simp [isDropped, h1, h2, h3]
          simp only [List.filter_cons, e1, e2, e3, e4, Bool.false_eq_true, if_true,
            if_false, ite_true, ite_false]
          exact perm_insert_middle ih
        · have e1 : isEmptyStatus f = false := by simp [isEmptyStatus, h1]
          have e2 : isFmStatus f = false := by simp [isFmStatus, h1, h2]
          have e3 : isClassified f = true := by simp [isClassified, h1, h2, h3]
          have e4 : isDropped f = false := by simp [isDropped, h1, h2, h3]
          simp only [List.filter_cons, e1, e2, e3, e4, Bool.false_eq_true, if_true,
            if_false, ite_true, ite_false]
          have ih' : fs.Perm ((fs.filter isEmptyStatus ++ fs.filter isFmStatus)
              ++ (fs.filter isClassified ++ fs.filter isDropped)) := by
            simpa [List.append_assoc] using ih
          have hmid := perm_insert_middle (a := f) ih'
          simpa [List.append_assoc] using hmid

/-- Decomposing a list of classified records into per-label buckets. -/
theorem buckets_perm :
    ∀ cts : List Str, cts.Pairwise (· ≠ ·) →
      ∀ l : List ResultFile, (∀ f ∈ l, f.Classification ∈ cts) →
        l.Perm ((cts.map (fun ct =>
          l.filter (fun f => decide (f.Classification = ct)))).flatten) := by
  intro cts
  induction cts with
  | nil =>
    intro _ l hl
    cases l with
    | nil => simp
    | cons f fs => exact absurd (hl f (by simp)) (List.not_mem_nil _)
  | cons ct cts ih =>
    intro hnd l hl
    have hsplit :=
      (List.filter_append_perm (fun f => decide (f.Classification = ct)) l).symm
    have hmem : ∀ f ∈ l.filter (fun f => !(decide (f.Classification = ct))),
        f.Classification ∈ cts := by
      intro f hf
      rw [List.mem_filter] at hf
      rcases List.mem_cons.mp (hl f hf.1) with h | h
      · exfalso; simp [h] at hf
      · exact h
    have hperm' := ih hnd.of_cons _ hmem
    have hbridge : ∀ ct' ∈ cts,
        (l.filter (fun f => !(decide (f.Classification = ct)))).filter
            (fun f => decide (f.Classification = ct'))
          = l.filter (fun f => decide (f.Classification = ct')) := by
      intro ct' hct'
      rw [List.filter_filter]
      apply List.filter_congr
      intro f _
      by_cases h : f.Classification = ct'
      · have hcc : ¬ ct' = ct := fun hc =>
          (List.rel_of_pairwise_cons hnd hct') hc.symm
        simp [h, hcc]
      · simp [h]
    have hmapeq :
        cts.map (fun ct' => (l.filter (fun f => !(decide (f.Classification = ct)))).filter
            (fun f => decide (f.Classification = ct')))
          = cts.map (fun ct' => l.filter (fun f => decide (f.Classification = ct'))) :=
      List.map_congr_left hbridge
    simp only [List.map_cons, List.flatten_cons]
    refine hsplit.trans (List.Perm.append_left _ ?_)
    rw [← hmapeq]
    exact hperm'

theorem filter_classified_bucket (files : List ResultFile) (ct : Str) :
    (files.filter isClassified).filter (fun f => decide (f.Classification = ct))
      = files.filter (isClassifiedAs ct) := by
  rw [List.filter_filter]
  apply List.filter_congr
  intro f _
  by_cases h1 : f.Status = StatusEmpty <;>
    by_cases h2 : f.Status = StatusFrontmatterOnly <;>
      by_cases h3 : f.Classification = [] <;>
        by_cases h4 : f.Classification = ct <;>
          simp [isClassified, isClassifiedAs, h1, h2, h3, h4]

/-! ## Lookup and insertion in the processed-files map -/

theorem mapInsert_fresh {m : List (Str × ResultFile)} {k : Str} (v : ResultFile)
    (h : k ∉ m.map (·.1)) : mapInsert m k v = m ++ [(k, v)] := by
  induction m with
  | nil => rfl
  | cons p rest ih =>
    obtain ⟨k', v'⟩ := p
    simp only [List.map_cons, List.mem_cons, not_or] at h
    unfold mapInsert
    rw [if_neg (fun hc : k' = k => h.1 hc.symm), ih h.2]
    rfl

theorem lookupMap_eq_none {m : List (Str × ResultFile)} {k : Str} :
    lookupMap m k = none ↔ k ∉ m.map (·.1) := by
  induction m with
  | nil => simp [lookupMap]
  | cons p rest ih =>
    obtain ⟨k', v'⟩ := p
    by_cases h : k' = k
    · subst h
      unfold lookupMap
      rw [if_pos rfl]
      simp
    · unfold lookupMap
      rw [if_neg h, ih]
      simp only [List.map_cons, List.mem_cons, not_or]
      constructor
      · intro hn
        exact ⟨fun hc => h hc.symm, hn⟩
      · intro hn
        exact hn.2

theorem lookupMap_mem_iff {m : List (Str × ResultFile)}
    (hd : (m.map (·.1)).Pairwise (· ≠ ·)) {k : Str} {v : ResultFile} :
    lookupMap m k = some v ↔ (k, v) ∈ m := by
  induction m with
  | nil => simp [lookupMap]
  | cons p rest ih =>
    obtain ⟨k', v'⟩ := p
    simp only [List.map_cons, List.pairwise_cons] at hd
    by_cases h : k' = k
    · subst h
      unfold lookupMap
      rw [if_pos rfl]
      simp only [List.mem_cons, Option.some_inj]
      constructor
      · intro hv
        exact Or.inl (by rw [← hv])
      · rintro (hv | hv)
        · exact (congrArg Prod.snd hv).symm
        · exact absurd rfl
            (hd.1 k' (by simpa using List.mem_map_of_mem (·.1) hv))
    · unfold lookupMap
      rw [if_neg h, ih hd.2]
      simp only [List.mem_cons]
      constructor
      · exact Or.inr
      · rintro (hv | hv)
        · exact absurd (congrArg Prod.fst hv).symm h
        · exact hv

/-! ## The lines of the generated report -/

/-- One per-classification statistics line (without its newline). -/
def statLine (p : Str × List ResultFile) : Str :=
  str "- " ++ p.1 ++ str " files: " ++ natChars p.2.length

/-- The lines of one section body: either the placeholder line and a
blank line, or the sorted entry lines followed by a blank line. -/
def sectionBodyLines (root placeholder : Str) (fs : List ResultFile) : List Str :=
  if fs.length = 0 then [placeholder, []]
  else (sortByPath fs).map (entryLine root) ++ [[]]

/-- The lines of one dynamically named classification section. -/
def classSectionLines (root : Str) (m : List (Str × List ResultFile)) (ct : Str) :
    List Str :=
  [str "## " ++ ct ++ str " Files", []]
    ++ sectionBodyLines root (str "No " ++ toLowerStr ct ++ str " files found.")
        (classLookup m ct)

/-- The report text as a list of lines (what `bufio.Scanner` will see on
the decode side). -/
def reportLines (root ts : Str) (files : List ResultFile) : List Str :=
  let c := categorize files
  [str "# Vault Quality Report", []]
  ++ [str "Generated on: " ++ ts, []]
  ++ [str "Target folder: `" ++ root ++ str "`", []]
  ++ [str "## Statistics", []]
  ++ [str "- Total files processed: " ++ natChars files.length]
  ++ [str "- Empty files: " ++ natChars c.emptyFiles.length]
  ++ [str "- Files with frontmatter only: " ++ natChars c.frontmatterOnlyFiles.length]
  ++ c.classificationMap.map statLine
  ++ [[]]
  ++ [str "## Empty Files", []]
  ++ sectionBodyLines root (str "No empty files found.") c.emptyFiles
  ++ [str "## Files with Frontmatter Only", []]
  ++ sectionBodyLines root (str "No files with frontmatter only found.")
      c.frontmatterOnlyFiles
  ++ ((sortStrings (c.classificationMap.map (·.1))).map
      (classSectionLines root c.classificationMap)).flatten

theorem nl_not_mem_append {a b : Str} (ha : '\n' ∉ a) (hb : '\n' ∉ b) :
    '\n' ∉ a ++ b := by
  simp [List.mem_append, ha, hb]

theorem nlLines_line2 {l : Str} (h : '\n' ∉ l) :
    NlLines (l ++ str "\n\n") [l, []] := by
  have h1 := nlLines_single h
  have h2 : NlLines (str "\n") [[]] := rfl
  have := nlLines_append h1 h2
  simpa [List.append_assoc] using this

theorem nlLines_flatten_multi {α} {g : α → Str} {lines : α → List Str} :
    ∀ l : List α, (∀ x ∈ l, NlLines (g x) (lines x)) →
      NlLines ((l.map g).flatten) ((l.map lines).flatten) := by
  intro l
  induction l with
  | nil => intro _; exact nlLines_nil
  | cons x xs ih =>
    intro h
    simp only [List.map_cons, List.flatten_cons]
    exact nlLines_append (h x (by simp)) (ih (fun y hy => h y (by simp [hy])))

theorem nlLines_section_body {root : Str} {fs : List ResultFile} {placeholder : Str}
    (hpl : '\n' ∉ placeholder)
    (hlinks : ∀ f ∈ fs, '\n' ∉ entryLine root f) :
    NlLines (if fs.length = 0 then placeholder ++ str "\n\n"
             else entryLines root (sortByPath fs) ++ str "\n")
      (sectionBodyLines root placeholder fs) := by
  by_cases h : fs.length = 0
  · rw [if_pos h]
    unfold sectionBodyLines
    rw [if_pos h]
    exact nlLines_line2 hpl
  · rw [if_neg h]
    unfold sectionBodyLines
    rw [if_neg h]
    have hflat : NlLines (entryLines root (sortByPath fs))
        ((sortByPath fs).map (entryLine root)) := by
      rw [entryLines_eq]
      apply nlLines_flatten
      intro f hf
      have hf' : f ∈ fs := (sortByPath_perm fs).mem_iff.mp hf
      have hl := hlinks f hf'
      exact nlLines_single hl
    exact nlLines_append hflat rfl

/-- Every key of the classification map is the label of some classified
record of the input. -/
theorem keys_label_exists {files : List ResultFile} {ct : Str}
    (h : ct ∈ (categorize files).classificationMap.map (·.1)) :
    ∃ f ∈ files, isClassified f = true ∧ f.Classification = ct := by
  have := (cat_keys_mem_aux files ⟨[], [], []⟩ ct).mp h
  rcases this with hacc | ⟨f, hf, hfc⟩
  · simp at hacc
  · refine ⟨f, hf, ?_, ?_⟩
    · simp only [isClassifiedAs, decide_eq_true_eq] at hfc
      simp [isClassified, hfc.1, hfc.2.1, hfc.2.2.1]
    · simp only [isClassifiedAs, decide_eq_true_eq] at hfc
      exact hfc.2.2.2

/-- The main line-level characterisation: under well-formedness of the
rendered paths and the classification labels, splitting the generated
report at newlines yields exactly `reportLines` (plus the inert final
empty piece). -/
theorem reportContent_lines {root ts : Str} {files : List ResultFile}
    (hroot : '\n' ∉ root) (hts : '\n' ∉ ts)
    (hwf : ∀ f ∈ files,
      (isEmptyStatus f = true ∨ isFmStatus f = true ∨ isClassified f = true) →
        '\n' ∉ entryLine root f)
    (hlab : ∀ f ∈ files, isClassified f = true → '\n' ∉ f.Classification) :
    NlLines (reportContent root ts files) (reportLines root ts files) := by
  have hkey : ∀ ct ∈ (categorize files).classificationMap.map (·.1),
      '\n' ∉ ct := by
    intro ct hct
    obtain ⟨f, hf, hfc, hfl⟩ := keys_label_exists hct
    exact hfl ▸ hlab f hf hfc
  have h1 : NlLines (str "# Vault Quality Report\n\n")
      [str "# Vault Quality Report", []] := rfl
  have h2 : NlLines (str "Generated on: " ++ ts ++ str "\n\n")
      [str "Generated on: " ++ ts, []] :=
    nlLines_line2 (nl_not_mem_append (by decide) hts)
  have h3 : NlLines (str "Target folder: `" ++ root ++ str "`\n\n")
      [str "Target folder: `" ++ root ++ str "`", []] := by
    have := nlLines_line2 (l := str "Target folder: `" ++ root ++ str "`")
      (nl_not_mem_append (nl_not_mem_append (by decide) hroot) (by decide))
    simpa [List.append_assoc] using this
  have h4 : NlLines (str "## Statistics\n\n") [str "## Statistics", []] := rfl
  have h5 : NlLines (str "- Total files processed: " ++ natChars files.length ++ str "\n")
      [str "- Total files processed: " ++ natChars files.length] :=
    nlLines_single (nl_not_mem_append (by decide) (nl_not_mem_natChars _))
  have h6 : NlLines (str "- Empty files: "
        ++ natChars (categorize files).emptyFiles.length ++ str "\n")
      [str "- Empty files: " ++ natChars (categorize files).emptyFiles.length] :=
    nlLines_single (nl_not_mem_append (by decide) (nl_not_mem_natChars _))
  have h7 : NlLines (str "- Files with frontmatter only: "
        ++ natChars (categorize files).frontmatterOnlyFiles.length ++ str "\n")
      [str "- Files with frontmatter only: "
        ++ natChars (categorize files).frontmatterOnlyFiles.length] :=
    nlLines_single (nl_not_mem_append (by decide) (nl_not_mem_natChars _))
  have h8 : NlLines (statsLines (categorize files).classificationMap)
      ((categorize files).classificationMap.map statLine) := by
    rw [statsLines_eq]
    apply nlLines_flatten
    intro p hp
    have hct : '\n' ∉ p.1 := hkey p.1 (List.mem_map_of_mem (·.1) hp)
    have : '\n' ∉ statLine p := by
      unfold statLine
      exact nl_not_mem_append
        (nl_not_mem_append (nl_not_mem_append (by decide) hct) (by decide))
        (nl_not_mem_natChars _)
    exact nlLines_single this
  have h9 : NlLines (str "\n") [[]] := rfl
  have h10 : NlLines (str "## Empty Files\n\n") [str "## Empty Files", []] := rfl
  have h11 : NlLines
      (if (categorize files).emptyFiles.length = 0 then str "No empty files found.\n\n"
       else entryLines root (sortByPath (categorize files).emptyFiles) ++ str "\n")
      (sectionBodyLines root (str "No empty files found.")
        (categorize files).emptyFiles) := by
    have := @nlLines_section_body root (categorize files).emptyFiles
      (str "No empty files found.") (by decide) ?_
    · exact this
    · intro f hf
      unfold categorize at hf
      rw [cat_emptyFiles_aux files ⟨[], [], []⟩] at hf
      simp only [Categorized.emptyFiles, List.nil_append] at hf
      have := List.mem_filter.mp hf
      exact hwf f this.1 (Or.inl this.2)
  have h12 : NlLines (str "## Files with Frontmatter Only\n\n")
      [str "## Files with Frontmatter Only", []] := rfl
  have h13 : NlLines
      (if (categorize files).frontmatterOnlyFiles.length = 0 then
        str "No files with frontmatter only found.\n\n"
       else entryLines root (sortByPath (categorize files).frontmatterOnlyFiles)
         ++ str "\n")
      (sectionBodyLines root (str "No files with frontmatter only found.")
        (categorize files).frontmatterOnlyFiles) := by
    have := @nlLines_section_body root (categorize files).frontmatterOnlyFiles
      (str "No files with frontmatter only found.") (by decide) ?_
    · exact this
    · intro f hf
      unfold categorize at hf
      rw [cat_fmFiles_aux files ⟨[], [], []⟩] at hf
      simp only [Categorized.frontmatterOnlyFiles, List.nil_append] at hf
      have := List.mem_filter.mp hf
      exact hwf f this.1 (Or.inr (Or.inl this.2))
  have h14 : NlLines (classSections root (categorize files).classificationMap)
      (((sortStrings ((categorize files).classificationMap.map (·.1))).map
        (classSectionLines root (categorize files).classificationMap)).flatten) := by
    unfold classSections
    rw [foldl_append_fn
      (fun classType =>
        (str "## " ++ classType ++ str " Files\n\n")
          ++ (if (classLookup (categorize files).classificationMap classType).length = 0
              then str "No " ++ toLowerStr classType ++ str " files found.\n\n"
              else entryLines root
                (sortByPath (classLookup (categorize files).classificationMap classType))
                ++ str "\n"))]
    simp only [List.nil_append]
    apply nlLines_flatten_multi
    intro ct hct
    have hct' : ct ∈ (categorize files).classificationMap.map (·.1) :=
      (sortStrings_perm _).mem_iff.mp hct
    have hctnl : '\n' ∉ ct := hkey ct hct'
    have hhead : NlLines (str "## " ++ ct ++ str " Files\n\n")
        [str "## " ++ ct ++ str " Files", []] := by
      have := nlLines_line2 (l := str "## " ++ ct ++ str " Files")
        (nl_not_mem_append (nl_not_mem_append (by decide) hctnl) (by decide))
      simpa [List.append_assoc] using this
    have hbucket : classLookup (categorize files).classificationMap ct
        = files.filter (isClassifiedAs ct) := by
      have := cat_classLookup_aux files ⟨[], [], []⟩ ct
      unfold categorize
      simpa [classLookup] using this
    have hbody : NlLines
        (if (classLookup (categorize files).classificationMap ct).length = 0
         then str "No " ++ toLowerStr ct ++ str " files found.\n\n"
         else entryLines root
           (sortByPath (classLookup (categorize files).classificationMap ct)) ++ str "\n")
        (sectionBodyLines root (str "No " ++ toLowerStr ct ++ str " files found.")
          (classLookup (categorize files).classificationMap ct)) := by
      have hne : (classLookup (categorize files).classificationMap ct).length ≠ 0 := by
        obtain ⟨f, hf, hfc, hfl⟩ := keys_label_exists hct'
        rw [hbucket]
        intro hc
        rw [List.length_eq_zero] at hc
        have : f ∈ files.filter (isClassifiedAs ct) := by
          rw [List.mem_filter]
          refine ⟨hf, ?_⟩
          simp only [isClassified, decide_eq_true_eq] at hfc
          simp [isClassifiedAs, hfc.1, hfc.2.1, hfl ▸ hfc.2.2, hfl]
        rw [hc] at this
        exact absurd this (List.not_mem_nil f)
      rw [if_neg hne]
      unfold sectionBodyLines
      rw [if_neg hne]
      have hflat : NlLines
          (entryLines root (sortByPath (classLookup (categorize files).classificationMap ct)))
          ((sortByPath (classLookup (categorize files).classificationMap ct)).map
            (entryLine root)) := by
        rw [entryLines_eq]
        apply nlLines_flatten
        intro f hf
        have hf' : f ∈ files.filter (isClassifiedAs ct) := by
          rw [← hbucket]
          exact (sortByPath_perm _).mem_iff.mp hf
        have hfm := List.mem_filter.mp hf'
        have hcl : isClassified f = true := by
          simp only [isClassifiedAs, decide_eq_true_eq] at hfm
          simp [isClassified, hfm.2.1, hfm.2.2.1, hfm.2.2.2.1]
        exact nlLines_single (hwf f hfm.1 (Or.inr (Or.inr hcl)))
      exact nlLines_append hflat rfl
    exact nlLines_append hhead hbody
  unfold reportContent reportLines
  dsimp only
  exact nlLines_append (nlLines_append (nlLines_append (nlLines_append
    (nlLines_append (nlLines_append (nlLines_append (nlLines_append
      (nlLines_append (nlLines_append (nlLines_append (nlLines_append
        (nlLines_append h1 h2) h3) h4) h5) h6) h7) h8) h9) h10) h11) h12) h13) h14

/-- Step of the decoder's map construction. -/
def insPair (m : List (Str × ResultFile)) (p : Str × ResultFile) :
    List (Str × ResultFile) := mapInsert m p.1 p.2

/-- The `(path, record)` pairs the decoder inserts for the entries of
one section. -/
def sectionPairs (root sec : Str) (fs : List ResultFile) : List (Str × ResultFile) :=
  fs.map (fun f => (f.Path, sectionRecord sec f.Path))

/-- All pairs the decoder inserts when reading back a generated report,
in reading order. -/
def decodedPairs (root : Str) (files : List ResultFile) : List (Str × ResultFile) :=
  let c := categorize files
  sectionPairs root (str "Empty Files") (sortByPath c.emptyFiles)
  ++ sectionPairs root (str "Files with Frontmatter Only")
      (sortByPath c.frontmatterOnlyFiles)
  ++ ((sortStrings (c.classificationMap.map (·.1))).map
      (fun ct => sectionPairs root (ct ++ str " Files")
        (sortByPath (classLookup c.classificationMap ct)))).flatten

theorem foldl_insPair_fresh :
    ∀ (pairs : List (Str × ResultFile)) (m : List (Str × ResultFile)),
      (pairs.map (·.1)).Pairwise (· ≠ ·) →
      (∀ k ∈ pairs.map (·.1), k ∉ m.map (·.1)) →
      pairs.foldl insPair m = m ++ pairs := by
  intro pairs
  induction pairs with
  | nil => intro m _ _; simp
  | cons p ps ih =>
    intro m hnd hfresh
    simp only [List.map_cons, List.pairwise_cons] at hnd
    simp only [List.foldl_cons]
    have h1 : insPair m p = m ++ [p] := by
      unfold insPair
      exact mapInsert_fresh p.2 (hfresh p.1 (by simp))
    rw [h1]
    have h2 := ih (m ++ [p]) hnd.2 ?_
    · rw [h2, List.append_assoc]
      rfl
    · intro k hk
      simp only [List.map_append, List.mem_append, not_or]
      refine ⟨hfresh k (by simp [hk]), ?_⟩
      simp only [List.map_cons, List.map_nil, List.mem_singleton]
      intro hc
      exact hnd.1 k hk hc.symm

/-! ## Running the decoder over the report's line blocks -/

theorem foldl_decode_inert₁ {root : Str} {l : Str} (h : InertLine l)
    (st : Str × List (Str × ResultFile)) :
    List.foldl (decodeLineStep root) st [l] = st := by
  simp only [List.foldl_cons, List.foldl_nil, decodeStep_inert _ h]

theorem foldl_decode_inert₂ {root : Str} {l1 l2 : Str}
    (h1 : InertLine l1) (h2 : InertLine l2)
    (st : Str × List (Str × ResultFile)) :
    List.foldl (decodeLineStep root) st [l1, l2] = st := by
  simp only [List.foldl_cons, List.foldl_nil, decodeStep_inert _ h1,
    decodeStep_inert _ h2]

theorem foldl_decode_heading₂ {root : Str} (rest : Str)
    (st : Str × List (Str × ResultFile)) :
    List.foldl (decodeLineStep root) st [str "## " ++ rest, []] = (rest, st.2) := by
  simp only [List.foldl_cons, List.foldl_nil, decode_heading]
  rw [decodeStep_inert _ inert_blank]

theorem inert_statLine {p : Str × List ResultFile}
    (h : ¬ ((str "[[").isPrefixOf p.1 = true)) : InertLine (statLine p) := by
  have hsh : statLine p
      = '-' :: ' ' :: (p.1 ++ ' ' :: (str "files: " ++ natChars p.2.length)) := by
    simp [statLine, str, List.append_assoc]
  rw [hsh]
  exact inert_dash_label h

theorem nl_not_mem_entryLine {root p : Str} (h : WfPath root p) :
    '\n' ∉ str "- " ++ formatObsidianLink root p := by
  obtain ⟨stem, hp, _, _, hnl⟩ := h
  rw [hp, formatObsidianLink_wf]
  exact nl_not_mem_append (by decide)
    (nl_not_mem_append (nl_not_mem_append (by decide) hnl) (by decide))

theorem foldl_decode_body {root sec : Str} (hsec : sec ≠ []) {placeholder : Str}
    (hpl : InertLine placeholder) {fs : List ResultFile}
    (hwf : ∀ f ∈ fs, WfPath root f.Path) (m : List (Str × ResultFile)) :
    (sectionBodyLines root placeholder fs).foldl (decodeLineStep root) (sec, m)
      = (sec, (sectionPairs root sec (sortByPath fs)).foldl insPair m) := by
  by_cases h : fs.length = 0
  · unfold sectionBodyLines
    rw [if_pos h]
    rw [List.length_eq_zero] at h
    subst h
    rw [foldl_decode_inert₂ hpl inert_blank]
    rfl
  · unfold sectionBodyLines
    rw [if_neg h]
    rw [List.foldl_append]
    have hsorted : ∀ f ∈ sortByPath fs, WfPath root f.Path := by
      intro f hf
      exact hwf f ((sortByPath_perm fs).mem_iff.mp hf)
    rw [foldl_decode_entries hsec (sortByPath fs) hsorted m]
    simp only [List.foldl_cons, List.foldl_nil]
    rw [decodeStep_inert _ inert_blank]
    unfold sectionPairs
    rw [List.foldl_map]
    rfl

theorem foldl_decode_classSections {root : Str} {m' : List (Str × List ResultFile)}
    (hwfb : ∀ ct, ∀ f ∈ classLookup m' ct, WfPath root f.Path) :
    ∀ (cts : List Str) (st : Str × List (Str × ResultFile)),
      (((cts.map (classSectionLines root m')).flatten).foldl
          (decodeLineStep root) st).2
        = ((cts.map (fun ct => sectionPairs root (ct ++ str " Files")
            (sortByPath (classLookup m' ct)))).flatten).foldl insPair st.2 := by
  intro cts
  induction cts with
  | nil => intro st; rfl
  | cons ct cts ih =>
    intro st
    simp only [List.map_cons, List.flatten_cons, List.foldl_append]
    have hblock : (classSectionLines root m' ct).foldl (decodeLineStep root) st
        = (ct ++ str " Files",
            (sectionPairs root (ct ++ str " Files")
              (sortByPath (classLookup m' ct))).foldl insPair st.2) := by
      unfold classSectionLines
      rw [show [str "## " ++ ct ++ str " Files", []]
            ++ sectionBodyLines root (str "No " ++ toLowerStr ct ++ str " files found.")
              (classLookup m' ct)
          = ([str "## " ++ ct ++ str " Files", []] : List Str)
            ++ sectionBodyLines root (str "No " ++ toLowerStr ct ++ str " files found.")
              (classLookup m' ct) from rfl]
      rw [List.foldl_append]
      have hh : List.foldl (decodeLineStep root) st
          [str "## " ++ ct ++ str " Files", []] = (ct ++ str " Files", st.2) := by
        have := @foldl_decode_heading₂ root (ct ++ str " Files") st
        rw [← List.append_assoc] at this
        exact this
      rw [hh]
      have hplin : InertLine (str "No " ++ toLowerStr ct ++ str " files found.") := by
        have hsh : str "No " ++ toLowerStr ct ++ str " files found."
            = 'N' :: (str "o " ++ (toLowerStr ct ++ str " files found.")) := by
          simp [str, List.append_assoc]
        rw [hsh]
        exact inert_cons _ (by decide) (by decide)
      exact foldl_decode_body (by simp [str]) hplin (hwfb ct) st.2
    rw [hblock, ih]

/-- Decoding a freshly generated report performs exactly the insertions
of `decodedPairs`, in reading order. -/
theorem loadReport_eq_decodedPairs {root ts : Str} {files : List ResultFile}
    (hroot : '\n' ∉ root) (hts : '\n' ∉ ts)
    (hwfp : ∀ f ∈ files,
      (isEmptyStatus f = true ∨ isFmStatus f = true ∨ isClassified f = true) →
        WfPath root f.Path)
    (hlab : ∀ f ∈ files, isClassified f = true →
      '\n' ∉ f.Classification ∧ ¬ ((str "[[").isPrefixOf f.Classification = true)) :
    loadReport root (reportContent root ts files)
      = (decodedPairs root files).foldl insPair [] := by
  have hlines := @reportContent_lines root ts files hroot hts
    (fun f hf hr => nl_not_mem_entryLine (hwfp f hf hr))
    (fun f hf hc => (hlab f hf hc).1)
  unfold NlLines at hlines
  unfold loadReport
  rw [hlines]
  unfold reportLines at *
  dsimp only at *
  simp only [List.foldl_append]
  have e1 : List.foldl (decodeLineStep root) (([] : Str), ([] : List (Str × ResultFile)))
      [str "# Vault Quality Report", []] = (([] : Str), ([] : List (Str × ResultFile))) :=
    foldl_decode_inert₂ (by decide) inert_blank _
  have igen : InertLine (str "Generated on: " ++ ts) := by
    rw [show str "Generated on: " ++ ts = 'G' :: (str "enerated on: " ++ ts) from by
      simp [str]]
    exact inert_cons _ (by decide) (by decide)
  have e2 : List.foldl (decodeLineStep root) (([] : Str), ([] : List (Str × ResultFile)))
      [str "Generated on: " ++ ts, []] = (([] : Str), ([] : List (Str × ResultFile))) :=
    foldl_decode_inert₂ igen inert_blank _
  have itgt : InertLine (str "Target folder: `" ++ root ++ str "`") := by
    rw [show str "Target folder: `" ++ root ++ str "`"
        = 'T' :: (str "arget folder: `" ++ (root ++ str "`")) from by
      simp [str, List.append_assoc]]
    exact inert_cons _ (by decide) (by decide)
  have e3 : List.foldl (decodeLineStep root) (([] : Str), ([] : List (Str × ResultFile)))
      [str "Target folder: `" ++ root ++ str "`", []]
      = (([] : Str), ([] : List (Str × ResultFile))) :=
    foldl_decode_inert₂ itgt inert_blank _
  have e4 : List.foldl (decodeLineStep root) (([] : Str), ([] : List (Str × ResultFile)))
      [str "## Statistics", []] = (str "Statistics", []) :=
    foldl_decode_heading₂ (str "Statistics") _
  have itot : InertLine (str "- Total files processed: " ++ natChars files.length) := by
    rw [show str "- Total files processed: " ++ natChars files.length
        = '-' :: ' ' :: 'T' :: (str "otal files processed: " ++ natChars files.length)
        from by simp [str]]
    exact inert_dash _ (by decide)
  have e5 : List.foldl (decodeLineStep root) ((str "Statistics"), [])
      [str "- Total files processed: " ++ natChars files.length]
      = ((str "Statistics"), []) := foldl_decode_inert₁ itot _
  have iemp : InertLine (str "- Empty files: "
      ++ natChars (categorize files).emptyFiles.length) := by
    rw [show str "- Empty files: " ++ natChars (categorize files).emptyFiles.length
        = '-' :: ' ' :: 'E' :: (str "mpty files: "
          ++ natChars (categorize files).emptyFiles.length) from by simp [str]]
    exact inert_dash _ (by decide)
  have e6 : List.foldl (decodeLineStep root) ((str "Statistics"), [])
      [str "- Empty files: " ++ natChars (categorize files).emptyFiles.length]
      = ((str "Statistics"), []) := foldl_decode_inert₁ iemp _
  have ifm : InertLine (str "- Files with frontmatter only: "
      ++ natChars (categorize files).frontmatterOnlyFiles.length) := by
    rw [show str "- Files with frontmatter only: "
          ++ natChars (categorize files).frontmatterOnlyFiles.length
        = '-' :: ' ' :: 'F' :: (str "iles with frontmatter only: "
          ++ natChars (categorize files).frontmatterOnlyFiles.length) from by simp [str]]
    exact inert_dash _ (by decide)
  have e7 : List.foldl (decodeLineStep root) ((str "Statistics"), [])
      [str "- Files with frontmatter only: "
        ++ natChars (categorize files).frontmatterOnlyFiles.length]
      = ((str "Statistics"), []) := foldl_decode_inert₁ ifm _
  have e8 : List.foldl (decodeLineStep root) ((str "Statistics"), [])
      ((categorize files).classificationMap.map statLine) = ((str "Statistics"), []) := by
    apply foldl_decode_inert
    intro l hl
    obtain ⟨p, hp, hpe⟩ := List.mem_map.mp hl
    obtain ⟨f, hf, hfc, hfl⟩ :=
      keys_label_exists (List.mem_map_of_mem (·.1) hp)
    rw [← hpe]
    exact inert_statLine (hfl ▸ (hlab f hf hfc).2)
  have e9 : List.foldl (decodeLineStep root) ((str "Statistics"), [])
      [([] : Str)] = ((str "Statistics"), []) := foldl_decode_inert₁ inert_blank _
  have e10 : List.foldl (decodeLineStep root) ((str "Statistics"), [])
      [str "## Empty Files", []] = (str "Empty Files", []) :=
    foldl_decode_heading₂ (str "Empty Files") _
  have hwfE : ∀ f ∈ (categorize files).emptyFiles, WfPath root f.Path := by
    intro f hf
    unfold categorize at hf
    rw [cat_emptyFiles_aux files ⟨[], [], []⟩] at hf
    simp only [List.nil_append] at hf
    have := List.mem_filter.mp hf
    exact hwfp f this.1 (Or.inl this.2)
  have e11 : List.foldl (decodeLineStep root) (str "Empty Files", [])
      (sectionBodyLines root (str "No empty files found.") (categorize files).emptyFiles)
      = (str "Empty Files",
          (sectionPairs root (str "Empty Files")
            (sortByPath (categorize files).emptyFiles)).foldl insPair []) :=
    foldl_decode_body (by decide) (by decide) hwfE []
  have e12 : List.foldl (decodeLineStep root)
      (str "Empty Files",
        (sectionPairs root (str "Empty Files")
          (sortByPath (categorize files).emptyFiles)).foldl insPair [])
      [str "## Files with Frontmatter Only", []]
      = (str "Files with Frontmatter Only",
          (sectionPairs root (str "Empty Files")
            (sortByPath (categorize files).emptyFiles)).foldl insPair []) :=
    foldl_decode_heading₂ (str "Files with Frontmatter Only") _
  have hwfF : ∀ f ∈ (categorize files).frontmatterOnlyFiles, WfPath root f.Path := by
    intro f hf
    unfold categorize at hf
    rw [cat_fmFiles_aux files ⟨[], [], []⟩] at hf
    simp only [List.nil_append] at hf
    have := List.mem_filter.mp hf
    exact hwfp f this.1 (Or.inr (Or.inl this.2))
  have e13 : List.foldl (decodeLineStep root)
      (str "Files with Frontmatter Only",
        (sectionPairs root (str "Empty Files")
          (sortByPath (categorize files).emptyFiles)).foldl insPair [])
      (sectionBodyLines root (str "No files with frontmatter only found.")
        (categorize files).frontmatterOnlyFiles)
      = (str "Files with Frontmatter Only",
          (sectionPairs root (str "Files with Frontmatter Only")
            (sortByPath (categorize files).frontmatterOnlyFiles)).foldl insPair
            ((sectionPairs root (str "Empty Files")
              (sortByPath (categorize files).emptyFiles)).foldl insPair [])) :=
    foldl_decode_body (by decide) (by decide) hwfF _
  have hwfb : ∀ ct, ∀ f ∈ classLookup (categorize files).classificationMap ct,
      WfPath root f.Path := by
    intro ct f hf
    have hbucket : classLookup (categorize files).classificationMap ct
        = files.filter (isClassifiedAs ct) := by
      have := cat_classLookup_aux files ⟨[], [], []⟩ ct
      unfold categorize
      simpa [classLookup] using this
    rw [hbucket] at hf
    have hfm := List.mem_filter.mp hf
    have hcl : isClassified f = true := by
      simp only [isClassifiedAs, decide_eq_true_eq] at hfm
      simp [isClassified, hfm.2.1, hfm.2.2.1, hfm.2.2.2.1]
    exact hwfp f hfm.1 (Or.inr (Or.inr hcl))
  have e14 := foldl_decode_classSections hwfb
    (sortStrings ((categorize files).classificationMap.map (·.1)))
  have e15 : ∀ st : Str × List (Str × ResultFile),
      List.foldl (decodeLineStep root) st [([] : Str)] = st :=
    fun st => foldl_decode_inert₁ inert_blank st
  rw [e1, e2, e3, e4, e5, e6, e7, e8, e9, e10, e11, e12, e13, e15, e14]
  unfold decodedPairs
  dsimp only
  simp only [List.foldl_append]

/-! ## From inserted pairs to the decoded map -/

/-- The records of the report's sections, in rendering order. -/
def renderedFiles (files : List ResultFile) : List ResultFile :=
  let c := categorize files
  sortByPath c.emptyFiles ++ sortByPath c.frontmatterOnlyFiles
  ++ ((sortStrings (c.classificationMap.map (·.1))).map
      (fun ct => sortByPath (classLookup c.classificationMap ct))).flatten

/-- The status the decoder reconstructs for a record of a generated
report (the section the encoder placed it in determines this). -/
def decodeStatus (f : ResultFile) : Str :=
  if f.Status = StatusEmpty then StatusEmpty
  else if f.Status = StatusFrontmatterOnly then StatusFrontmatterOnly
  else if f.Classification = str "Empty" then StatusEmpty
  else StatusNeedsReview

/-- The classification the decoder reconstructs. -/
def decodeLabel (f : ResultFile) : Str :=
  if f.Status = StatusEmpty then str "Empty"
  else if f.Status = StatusFrontmatterOnly then str "Low quality"
  else f.Classification

/-- The record the decoder reconstructs for `f` after a round trip. -/
def decodeVersion (f : ResultFile) : ResultFile :=
  ⟨f.Path, decodeStatus f, decodeLabel f⟩

/-- A record the encoder renders into some section. -/
def renderedRec (f : ResultFile) : Prop :=
  isEmptyStatus f = true ∨ isFmStatus f = true ∨ isClassified f = true

instance (f : ResultFile) : Decidable (renderedRec f) := by
  unfold renderedRec
  infer_instance

theorem sectionPairs_keys (root sec : Str) (fs : List ResultFile) :
    (sectionPairs root sec fs).map (·.1) = fs.map (·.Path) := by
  unfold sectionPairs
  rw [List.map_map]
  rfl

theorem decodedPairs_keys (root : Str) (files : List ResultFile) :
    (decodedPairs root files).map (·.1) = (renderedFiles files).map (·.Path) := by
  unfold decodedPairs renderedFiles
  dsimp only
  simp only [List.map_append, List.map_flatten, List.map_map]
  congr 1
  · congr 1
    · exact sectionPairs_keys root (str "Empty Files") _
    · exact sectionPairs_keys root (str "Files with Frontmatter Only") _
  · congr 1
    apply List.map_congr_left
    intro ct _
    exact sectionPairs_keys root (ct ++ str " Files") _

theorem join_map_perm {α β} {g h : α → List β} :
    ∀ l : List α, (∀ x ∈ l, (g x).Perm (h x)) →
      ((l.map g).flatten).Perm ((l.map h).flatten) := by
  intro l
  induction l with
  | nil => intro _; simp
  | cons x xs ih =>
    intro hx
    simp only [List.map_cons, List.flatten_cons]
    exact (hx x (by simp)).append (ih (fun y hy => hx y (by simp [hy])))

theorem renderedFiles_perm (files : List ResultFile) :
    (renderedFiles files).Perm
      (files.filter isEmptyStatus ++ files.filter isFmStatus
        ++ files.filter isClassified) := by
  unfold renderedFiles
  dsimp only
  have hE : (categorize files).emptyFiles = files.filter isEmptyStatus := by
    unfold categorize
    rw [cat_emptyFiles_aux files ⟨[], [], []⟩]
    rfl
  have hF : (categorize files).frontmatterOnlyFiles = files.filter isFmStatus := by
    unfold categorize
    rw [cat_fmFiles_aux files ⟨[], [], []⟩]
    rfl
  have hbucket : ∀ ct, classLookup (categorize files).classificationMap ct
      = files.filter (isClassifiedAs ct) := by
    intro ct
    have := cat_classLookup_aux files ⟨[], [], []⟩ ct
    unfold categorize
    simpa [classLookup] using this
  have hp1 : (sortByPath (categorize files).emptyFiles).Perm
      (files.filter isEmptyStatus) := hE ▸ sortByPath_perm _
  have hp2 : (sortByPath (categorize files).frontmatterOnlyFiles).Perm
      (files.filter isFmStatus) := hF ▸ sortByPath_perm _
  have hkeysnd : ((categorize files).classificationMap.map (·.1)).Pairwise (· ≠ ·) := by
    unfold categorize
    exact cat_keys_nodup_aux files ⟨[], [], []⟩ (by simp)
  have hlabmem : ∀ f ∈ files.filter isClassified,
      f.Classification ∈ (categorize files).classificationMap.map (·.1) := by
    intro f hf
    have hfm := List.mem_filter.mp hf
    unfold categorize
    rw [cat_keys_mem_aux files ⟨[], [], []⟩]
    refine Or.inr ⟨f, hfm.1, ?_⟩
    simp only [isClassified, decide_eq_true_eq] at hfm
    simp [isClassifiedAs, hfm.2.1, hfm.2.2.1, hfm.2.2.2]
  have hp3 : (((sortStrings ((categorize files).classificationMap.map (·.1))).map
      (fun ct => sortByPath (classLookup (categorize files).classificationMap ct))).flatten).Perm
      (files.filter isClassified) := by
    have step1 : (((sortStrings ((categorize files).classificationMap.map (·.1))).map
        (fun ct => sortByPath (classLookup (categorize files).classificationMap ct))).flatten).Perm
        (((sortStrings ((categorize files).classificationMap.map (·.1))).map
        (fun ct => classLookup (categorize files).classificationMap ct)).flatten) :=
      join_map_perm _ (fun ct _ => sortByPath_perm _)
    have step2 : (((sortStrings ((categorize files).classificationMap.map (·.1))).map
        (fun ct => classLookup (categorize files).classificationMap ct)).flatten).Perm
        ((((categorize files).classificationMap.map (·.1)).map
        (fun ct => classLookup (categorize files).classificationMap ct)).flatten) :=
      ((sortStrings_perm _).map _).flatten
    have step3 : ((((categorize files).classificationMap.map (·.1)).map
        (fun ct => classLookup (categorize files).classificationMap ct)).flatten).Perm
        (files.filter isClassified) := by
      have hb := buckets_perm ((categorize files).classificationMap.map (·.1)) hkeysnd
        (files.filter isClassified) hlabmem
      have heq : ((categorize files).classificationMap.map (·.1)).map
          (fun ct => (files.filter isClassified).filter
            (fun f => decide (f.Classification = ct)))
          = ((categorize files).classificationMap.map (·.1)).map
          (fun ct => classLookup (categorize files).classificationMap ct) := by
        apply List.map_congr_left
        intro ct _
        rw [filter_classified_bucket, hbucket]
      rw [heq] at hb
      exact hb.symm
    exact (step1.trans step2).trans step3
  exact ((hp1.append hp2).append hp3)

theorem files_perm_rendered (files : List ResultFile) :
    files.Perm (renderedFiles files ++ files.filter isDropped) := by
  have h1 := partition4_perm files
  have h2 : ((renderedFiles files) ++ files.filter isDropped).Perm
      ((files.filter isEmptyStatus ++ files.filter isFmStatus
        ++ files.filter isClassified) ++ files.filter isDropped) :=
    List.Perm.append_right _ (renderedFiles_perm files)
  exact h1.trans h2.symm

/-- Two records of a path-distinct list with the same path are equal. -/
theorem path_unique {files : List ResultFile}
    (hd : files.Pairwise (fun a b => a.Path ≠ b.Path)) {f g : ResultFile}
    (hf : f ∈ files) (hg : g ∈ files) (he : f.Path = g.Path) : f = g := by
  induction files with
  | nil => exact absurd hf (List.not_mem_nil f)
  | cons x xs ih =>
    rw [List.pairwise_cons] at hd
    rcases List.mem_cons.mp hf with rfl | hf'
    · rcases List.mem_cons.mp hg with rfl | hg'
      · rfl
      · exact absurd he (hd.1 g hg')
    · rcases List.mem_cons.mp hg with rfl | hg'
      · exact absurd he.symm (hd.1 f hf')
      · exact ih hd.2 hf' hg'

theorem rendered_paths_nodup {files : List ResultFile}
    (hd : files.Pairwise (fun a b => a.Path ≠ b.Path)) :
    ((renderedFiles files).map (·.Path)).Pairwise (· ≠ ·) := by
  have hperm := files_perm_rendered files
  have htrans := (List.Perm.pairwise_iff
    (fun h => (h ∘ Eq.symm : _)) hperm).mp hd
  have := (List.pairwise_append.mp htrans).1
  exact List.pairwise_map.mpr this

theorem mem_decodedPairs_iff {root : Str} {files : List ResultFile}
    (pr : Str × ResultFile) :
    pr ∈ decodedPairs root files ↔
      ∃ f ∈ files, renderedRec f ∧ pr = (f.Path, decodeVersion f) := by
  have hE : (categorize files).emptyFiles = files.filter isEmptyStatus := by
    unfold categorize
    rw [cat_emptyFiles_aux files ⟨[], [], []⟩]
    rfl
  have hF : (categorize files).frontmatterOnlyFiles = files.filter isFmStatus := by
    unfold categorize
    rw [cat_fmFiles_aux files ⟨[], [], []⟩]
    rfl
  have hbucket : ∀ ct, classLookup (categorize files).classificationMap ct
      = files.filter (isClassifiedAs ct) := by
    intro ct
    have := cat_classLookup_aux files ⟨[], [], []⟩ ct
    unfold categorize
    simpa [classLookup] using this
  constructor
  · intro hpr
    unfold decodedPairs at hpr
    dsimp only at hpr
    rcases List.mem_append.mp hpr with hpr' | hpr3
    · rcases List.mem_append.mp hpr' with hpr1 | hpr2
      · obtain ⟨f, hf, hfe⟩ := List.mem_map.mp hpr1
        have hmem : f ∈ files.filter isEmptyStatus := by
          rw [← hE]
          exact (sortByPath_perm _).mem_iff.mp hf
        have hfm := List.mem_filter.mp hmem
        have hstat : f.Status = StatusEmpty := by
          simpa [isEmptyStatus] using hfm.2
        refine ⟨f, hfm.1, Or.inl hfm.2, ?_⟩
        rw [← hfe]
        unfold sectionRecord decodeVersion decodeStatus decodeLabel
        rw [sectionFields_empty]
        simp [hstat]
      · obtain ⟨f, hf, hfe⟩ := List.mem_map.mp hpr2
        have hmem : f ∈ files.filter isFmStatus := by
          rw [← hF]
          exact (sortByPath_perm _).mem_iff.mp hf
        have hfm := List.mem_filter.mp hmem
        have hstat : ¬ f.Status = StatusEmpty ∧ f.Status = StatusFrontmatterOnly := by
          simpa [isFmStatus] using hfm.2
        refine ⟨f, hfm.1, Or.inr (Or.inl hfm.2), ?_⟩
        rw [← hfe]
        unfold sectionRecord decodeVersion decodeStatus decodeLabel
        rw [sectionFields_fm]
        simp [hstat.1, hstat.2, statusFm_ne_statusEmpty]
    · obtain ⟨piece, hpiece, hprp⟩ := List.mem_flatten.mp hpr3
      obtain ⟨ct, _, hcte⟩ := List.mem_map.mp hpiece
      rw [← hcte] at hprp
      obtain ⟨f, hf, hfe⟩ := List.mem_map.mp hprp
      have hmem : f ∈ files.filter (isClassifiedAs ct) := by
        rw [← hbucket]
        exact (sortByPath_perm _).mem_iff.mp hf
      have hfm := List.mem_filter.mp hmem
      have hc : ¬ f.Status = StatusEmpty ∧ ¬ f.Status = StatusFrontmatterOnly
          ∧ f.Classification ≠ [] ∧ f.Classification = ct := by
        simpa [isClassifiedAs] using hfm.2
      refine ⟨f, hfm.1, Or.inr (Or.inr (by
        simp [isClassified, hc.1, hc.2.1, hc.2.2.1])), ?_⟩
      rw [← hfe]
      unfold sectionRecord decodeVersion decodeStatus decodeLabel
      rw [sectionFields_dyn]
      simp only [hc.1, hc.2.1, if_false, ite_false, ← hc.2.2.2]
  · rintro ⟨f, hf, hr, rfl⟩
    unfold decodedPairs
    dsimp only
    rcases hr with hr | hr | hr
    · apply List.mem_append.mpr; left
      apply List.mem_append.mpr; left
      apply List.mem_map.mpr
      refine ⟨f, ?_, ?_⟩
      · apply (sortByPath_perm _).mem_iff.mpr
        rw [hE]
        exact List.mem_filter.mpr ⟨hf, hr⟩
      · have hstat : f.Status = StatusEmpty := by simpa [isEmptyStatus] using hr
        unfold sectionRecord decodeVersion decodeStatus decodeLabel
        rw [sectionFields_empty]
        simp [hstat]
    · apply List.mem_append.mpr; left
      apply List.mem_append.mpr; right
      apply List.mem_map.mpr
      refine ⟨f, ?_, ?_⟩
      · apply (sortByPath_perm _).mem_iff.mpr
        rw [hF]
        exact List.mem_filter.mpr ⟨hf, hr⟩
      · have hstat : ¬ f.Status = StatusEmpty ∧ f.Status = StatusFrontmatterOnly := by
          simpa [isFmStatus] using hr
        unfold sectionRecord decodeVersion decodeStatus decodeLabel
        rw [sectionFields_fm]
        simp [hstat.1, hstat.2, statusFm_ne_statusEmpty]
    · apply List.mem_append.mpr; right
      apply List.mem_flatten.mpr
      have hc : ¬ f.Status = StatusEmpty ∧ ¬ f.Status = StatusFrontmatterOnly
          ∧ f.Classification ≠ [] := by
        simpa [isClassified] using hr
      have hkey : f.Classification ∈ (categorize files).classificationMap.map (·.1) := by
        unfold categorize
        rw [cat_keys_mem_aux files ⟨[], [], []⟩]
        refine Or.inr ⟨f, hf, ?_⟩
        simp [isClassifiedAs, hc.1, hc.2.1, hc.2.2]
      refine ⟨sectionPairs root (f.Classification ++ str " Files")
        (sortByPath (classLookup (categorize files).classificationMap f.Classification)),
        ?_, ?_⟩
      · apply List.mem_map.mpr
        exact ⟨f.Classification, (sortStrings_perm _).mem_iff.mpr hkey, rfl⟩
      · apply List.mem_map.mpr
        refine ⟨f, ?_, ?_⟩
        · apply (sortByPath_perm _).mem_iff.mpr
          rw [hbucket]
          apply List.mem_filter.mpr
          refine ⟨hf, ?_⟩
          simp [isClassifiedAs, hc.1, hc.2.1, hc.2.2]
        · unfold sectionRecord decodeVersion decodeStatus decodeLabel
          rw [sectionFields_dyn]
          by_cases hlbl : f.Classification = str "Empty" <;>
            simp [hlbl, hc.1, hc.2.1]

/-- The decoded map of a generated report, as a function of the input
records: the unique record with the queried path is recovered (with the
section-determined status and label) when it was rendered, and absent
when it was dropped. -/
theorem lookup_loadReport {root ts : Str} {files : List ResultFile}
    (hroot : '\n' ∉ root) (hts : '\n' ∉ ts)
    (hwfp : ∀ f ∈ files, renderedRec f → WfPath root f.Path)
    (hlab : ∀ f ∈ files, isClassified f = true →
      '\n' ∉ f.Classification ∧ ¬ ((str "[[").isPrefixOf f.Classification = true))
    (hdist : files.Pairwise (fun a b => a.Path ≠ b.Path)) :
    ∀ p, lookupMap (loadReport root (reportContent root ts files)) p
      = (files.find? (fun f => decide (f.Path = p))).bind
          (fun f => if renderedRec f then some (decodeVersion f) else none) := by
  intro p
  rw [loadReport_eq_decodedPairs hroot hts (fun f hf hr => hwfp f hf hr) hlab]
  have hkeysnd : ((decodedPairs root files).map (·.1)).Pairwise (· ≠ ·) := by
    rw [decodedPairs_keys]
    exact rendered_paths_nodup hdist
  rw [foldl_insPair_fresh (decodedPairs root files) [] hkeysnd (by simp)]
  rw [List.nil_append]
  cases hfind : files.find? (fun f => decide (f.Path = p)) with
  | none =>
    show lookupMap (decodedPairs root files) p = none
    apply lookupMap_eq_none.mpr
    intro hmem
    obtain ⟨pr, hpr, hpr1⟩ := List.mem_map.mp hmem
    obtain ⟨f, hf, _, hpe⟩ := (mem_decodedPairs_iff pr).mp hpr
    have hfp : f.Path = p := by rw [hpe] at hpr1; exact hpr1
    have := List.find?_eq_none.mp hfind f hf
    simp [hfp] at this
  | some f =>
    have hfp : f.Path = p := by simpa using List.find?_some hfind
    have hfmem : f ∈ files := List.mem_of_find?_eq_some hfind
    by_cases hr : renderedRec f
    · show lookupMap (decodedPairs root files) p
          = if renderedRec f then some (decodeVersion f) else none
      rw [if_pos hr]
      apply (lookupMap_mem_iff hkeysnd).mpr
      apply (mem_decodedPairs_iff _).mpr
      exact ⟨f, hfmem, hr, by rw [hfp]⟩
    · show lookupMap (decodedPairs root files) p
          = if renderedRec f then some (decodeVersion f) else none
      rw [if_neg hr]
      apply lookupMap_eq_none.mpr
      intro hmem
      obtain ⟨pr, hpr, hpr1⟩ := List.mem_map.mp hmem
      obtain ⟨g, hg, hgr, hpe⟩ := (mem_decodedPairs_iff pr).mp hpr
      have hgp : g.Path = p := by rw [hpe] at hpr1; exact hpr1
      have : g = f := path_unique hdist hg hfmem (by rw [hgp, hfp])
      exact hr (this ▸ hgr)

/-! ## File-system model for the persistence discipline

`updateReport`'s I/O skeleton (`os.Create` on the sibling `.tmp` file,
`WriteString`, `Close`, `os.Rename`, `os.Remove` on the error paths) is
modelled over an association-list file system; a `FileObj` records the
content and whether the file can be opened/read (`os.Open` succeeding
in `loadExistingReport`). -/

structure FileObj where
  content : Str
  readable : Bool
deriving DecidableEq, Repr

def fsLookup : List (Str × FileObj) → Str → Option FileObj
  | [], _ => none
  | (k', v) :: rest, k => if k' = k then some v else fsLookup rest k

def fsInsert : List (Str × FileObj) → Str → FileObj → List (Str × FileObj)
  | [], k, v => [(k, v)]
  | (k', v') :: rest, k, v =>
    if k' = k then (k', v) :: rest else (k', v') :: fsInsert rest k v

def fsRemove (fs : List (Str × FileObj)) (k : Str) : List (Str × FileObj) :=
  fs.filter (fun p => !(decide (p.1 = k)))

/-- The possible outcomes of the I/O calls in `updateReport`, used to
inject failures of `WriteString`, `Close` and `os.Rename`. -/
inductive IOOutcome where
  | ok
  | writeFail
  | closeFail
  | renameFail
deriving DecidableEq, Repr

/-- `updateReport` over the file-system model: create the sibling
temporary file, generate the content, write it, close, and atomically
rename over the report path; on a write/close/rename failure remove the
temporary file and report the error (`true` in the second component).
Mirrors the call sequence of the source line by line. -/
def updateReportFS (fs : List (Str × FileObj)) (ps : ProcessingState) (ts : Str)
    (oc : IOOutcome) : List (Str × FileObj) × Bool :=
  let tempFile := ps.ReportPath ++ str ".tmp"
  let fs1 := fsInsert fs tempFile ⟨[], true⟩
  let content := reportContent ps.TargetFolder ts (valuesOf ps.ProcessedFiles)
  match oc with
  | .writeFail => (fsRemove fs1 tempFile, true)
  | .closeFail => (fsRemove (fsInsert fs1 tempFile ⟨content, true⟩) tempFile, true)
  | .renameFail => (fsRemove (fsInsert fs1 tempFile ⟨content, true⟩) tempFile, true)
  | .ok =>
    let fs2 := fsInsert fs1 tempFile ⟨content, true⟩
    (fsRemove (fsInsert fs2 ps.ReportPath ⟨content, true⟩) tempFile, false)

/-- `state.New` over the file-system model: compute the report path, and
if a report exists there load it (`loadExistingReport`), failing when it
cannot be opened; otherwise start with an empty map. -/
def NewFS (fs : List (Str × FileObj)) (targetFolder : Str) : Option ProcessingState :=
  let reportPath := filepathJoin targetFolder (str "vault-quality-report.md")
  match fsLookup fs reportPath with
  | none => some ⟨targetFolder, reportPath, []⟩
  | some obj =>
    if obj.readable then
      some ⟨targetFolder, reportPath, loadReport targetFolder obj.content⟩
    else none

/-- `AddProcessedFile` over the file-system model: insert the record
into the in-memory map, then regenerate the report. -/
def AddProcessedFileFS (ps : ProcessingState) (file : ResultFile)
    (fs : List (Str × FileObj)) (ts : Str) (oc : IOOutcome) :
    ProcessingState × List (Str × FileObj) × Bool :=
  let ps' := { ps with ProcessedFiles := mapInsert ps.ProcessedFiles file.Path file }
  let r := updateReportFS fs ps' ts oc
  (ps', r.1, r.2)

/-- One full run: upsert each record in turn, each upsert persisting
successfully. -/
def runUpserts (ts : Str) :
    ProcessingState × List (Str × FileObj) → List ResultFile →
      ProcessingState × List (Str × FileObj)
  | st, [] => st
  | (ps, fs), f :: rest =>
    let r := AddProcessedFileFS ps f fs ts .ok
    runUpserts ts (r.1, r.2.1) rest

theorem fsLookup_insert_self (fs : List (Str × FileObj)) (k : Str) (v : FileObj) :
    fsLookup (fsInsert fs k v) k = some v := by
  induction fs with
  | nil => simp [fsInsert, fsLookup]
  | cons p rest ih =>
    obtain ⟨k', v'⟩ := p
    by_cases h : k' = k
    · simp [fsInsert, fsLookup, h]
    · simp [fsInsert, fsLookup, h, ih]

theorem fsLookup_insert_ne (fs : List (Str × FileObj)) {k k' : Str} (v : FileObj)
    (h : k ≠ k') : fsLookup (fsInsert fs k v) k' = fsLookup fs k' := by
  induction fs with
  | nil => simp [fsInsert, fsLookup, h]
  | cons p rest ih =>
    obtain ⟨k'', v''⟩ := p
    by_cases h2 : k'' = k
    · subst h2
      simp [fsInsert, fsLookup, h]
    · simp [fsInsert, fsLookup, h2, ih]

theorem fsLookup_remove_self (fs : List (Str × FileObj)) (k : Str) :
    fsLookup (fsRemove fs k) k = none := by
  induction fs with
  | nil => rfl
  | cons p rest ih =>
    obtain ⟨k', v'⟩ := p
    by_cases h : k' = k
    · simpa [fsRemove, List.filter_cons, h] using ih
    · simpa [fsRemove, List.filter_cons, h, fsLookup] using ih

theorem fsLookup_remove_ne (fs : List (Str × FileObj)) {k k' : Str} (h : k ≠ k') :
    fsLookup (fsRemove fs k) k' = fsLookup fs k' := by
  induction fs with
  | nil => rfl
  | cons p rest ih =>
    obtain ⟨k'', v''⟩ := p
    by_cases h2 : k'' = k
    · subst h2
      have hne : ¬ (k'' = k') := fun hc => h hc
      simpa [fsRemove, List.filter_cons, fsLookup, hne] using ih
    · by_cases h3 : k'' = k'
      · simp [fsRemove, List.filter_cons, fsLookup, h2, h3, Ne.symm h]
      · simpa [fsRemove, List.filter_cons, fsLookup, h2, h3] using ih

/-- The sibling temporary path differs from the report path. -/
theorem tmp_ne_report (p : Str) : p ++ str ".tmp" ≠ p := by
  intro h
  have := congrArg List.length h
  simp [str] at this

theorem updateReportFS_ok_report (fs : List (Str × FileObj)) (ps : ProcessingState)
    (ts : Str) :
    fsLookup (updateReportFS fs ps ts .ok).1 ps.ReportPath
      = some ⟨reportContent ps.TargetFolder ts (valuesOf ps.ProcessedFiles), true⟩ := by
  unfold updateReportFS
  dsimp only
  rw [fsLookup_remove_ne _ (tmp_ne_report _), fsLookup_insert_self]

theorem runUpserts_ps (ts : Str) :
    ∀ (records : List ResultFile) (ps : ProcessingState) (fs : List (Str × FileObj)),
      (runUpserts ts (ps, fs) records).1
        = { ps with ProcessedFiles :=
            records.foldl (fun m f => mapInsert m f.Path f) ps.ProcessedFiles } := by
  intro records
  induction records with
  | nil => intro ps fs; rfl
  | cons f rest ih =>
    intro ps fs
    show (runUpserts ts
        ({ ps with ProcessedFiles := mapInsert ps.ProcessedFiles f.Path f },
         (updateReportFS fs
           { ps with ProcessedFiles := mapInsert ps.ProcessedFiles f.Path f } ts .ok).1)
        rest).1 = _
    rw [ih]
    simp

theorem runUpserts_fs (ts : Str) :
    ∀ (records : List ResultFile) (ps : ProcessingState) (fs : List (Str × FileObj)),
      records ≠ [] →
      fsLookup (runUpserts ts (ps, fs) records).2 ps.ReportPath
        = some ⟨reportContent ps.TargetFolder ts
            (valuesOf (runUpserts ts (ps, fs) records).1.ProcessedFiles), true⟩ := by
  intro records
  induction records with
  | nil => intro ps fs h; exact absurd rfl h
  | cons f rest ih =>
    intro ps fs _
    cases rest with
    | nil =>
      show fsLookup (updateReportFS fs _ ts .ok).1 ps.ReportPath = _
      exact updateReportFS_ok_report _ _ _
    | cons g rest' =>
      show fsLookup (runUpserts ts
          ({ ps with ProcessedFiles := mapInsert ps.ProcessedFiles f.Path f },
           (updateReportFS fs
             { ps with ProcessedFiles := mapInsert ps.ProcessedFiles f.Path f } ts .ok).1)
          (g :: rest')).2 ps.ReportPath = _
      exact ih { ps with ProcessedFiles := mapInsert ps.ProcessedFiles f.Path f } _
        (by simp)

/-- With pairwise-distinct paths, upserting all records into an empty
map yields exactly one entry per record, in order. -/
theorem foldl_mapInsert_all {records : List ResultFile}
    (hdist : records.Pairwise (fun a b => a.Path ≠ b.Path)) :
    records.foldl (fun m f => mapInsert m f.Path f) []
      = records.map (fun f => (f.Path, f)) := by
  have h1 : records.foldl (fun m f => mapInsert m f.Path f) []
      = (records.map (fun f => (f.Path, f))).foldl insPair [] := by
    rw [List.foldl_map]
    rfl
  rw [h1]
  have h2 := foldl_insPair_fresh (records.map (fun f => (f.Path, f))) [] ?_ (by simp)
  · rw [h2]
    rfl
  · rw [List.map_map]
    have : ((fun p : Str × ResultFile => p.1) ∘ fun f : ResultFile => (f.Path, f))
        = fun f : ResultFile => f.Path := rfl
    rw [this]
    exact List.pairwise_map.mpr hdist

/-! ## Small helpers for the top-level properties -/

/-- In a path-distinct list, `find?` on a member's path returns that
member. -/
theorem find_path_self {files : List ResultFile}
    (hdist : files.Pairwise (fun a b => a.Path ≠ b.Path))
    {f : ResultFile} (hf : f ∈ files) :
    files.find? (fun g => decide (g.Path = f.Path)) = some f := by
  cases hfind : files.find? (fun g => decide (g.Path = f.Path)) with
  | none =>
    have := List.find?_eq_none.mp hfind f hf
    simp at this
  | some g =>
    have hgp : g.Path = f.Path := by simpa using List.find?_some hfind
    have hgm : g ∈ files := List.mem_of_find?_eq_some hfind
    rw [path_unique hdist hgm hf hgp]

theorem lookupMap_insert_self (m : List (Str × ResultFile)) (k : Str)
    (v : ResultFile) : lookupMap (mapInsert m k v) k = some v := by
  induction m with
  | nil => simp [mapInsert, lookupMap]
  | cons p rest ih =>
    obtain ⟨k', v'⟩ := p
    by_cases h : k' = k
    · simp [mapInsert, lookupMap, h]
    · simp [mapInsert, lookupMap, h, ih]

theorem valuesOf_map_pair (records : List ResultFile) :
    valuesOf (records.map (fun f => (f.Path, f))) = records := by
  unfold valuesOf
  rw [List.map_map]
  rw [show ((fun p : Str × ResultFile => p.2) ∘ fun f : ResultFile => (f.Path, f))
    = id from rfl, List.map_id]

/-- A member of the rendered list is a member of the input that the
encoder renders. -/
theorem mem_renderedFiles {files : List ResultFile} {f : ResultFile}
    (h : f ∈ renderedFiles files) : f ∈ files ∧ renderedRec f := by
  have hmem := (renderedFiles_perm files).mem_iff.mp h
  rw [List.mem_append, List.mem_append] at hmem
  rcases hmem with (hm | hm) | hm
  · exact ⟨(List.mem_filter.mp hm).1, Or.inl (List.mem_filter.mp hm).2⟩
  · exact ⟨(List.mem_filter.mp hm).1, Or.inr (Or.inl (List.mem_filter.mp hm).2)⟩
  · exact ⟨(List.mem_filter.mp hm).1, Or.inr (Or.inr (List.mem_filter.mp hm).2)⟩

/-- Every generated link is bracket-wrapped. -/
theorem formatObsidianLink_shape (root p : Str) :
    ∃ z, formatObsidianLink root p = str "[[" ++ z ++ str "]]" :=
  ⟨_, rfl⟩

/-- Every line of a generated report is decoder-inert, a heading, or a
rendered entry line. -/
theorem reportLines_cases {root ts : Str} {files : List ResultFile}
    (hlab : ∀ f ∈ files, isClassified f = true →
      ¬ ((str "[[").isPrefixOf f.Classification = true)) :
    ∀ line ∈ reportLines root ts files,
      InertLine line ∨ (∃ x, line = str "## " ++ x)
        ∨ ∃ f ∈ renderedFiles files, line = entryLine root f := by
  have hbody : ∀ (placeholder : Str) (fs : List ResultFile), InertLine placeholder →
      ∀ line ∈ sectionBodyLines root placeholder fs,
        InertLine line ∨ ∃ f ∈ sortByPath fs, line = entryLine root f := by
    intro placeholder fs hpl line h
    unfold sectionBodyLines at h
    by_cases hl : fs.length = 0
    · rw [if_pos hl] at h
      rcases List.mem_cons.mp h with rfl | h2
      · exact Or.inl hpl
      · rcases List.mem_cons.mp h2 with rfl | h3
        · exact Or.inl inert_blank
        · exact absurd h3 (List.not_mem_nil _)
    · rw [if_neg hl] at h
      rcases List.mem_append.mp h with h2 | h2
      · obtain ⟨f, hf, hfl⟩ := List.mem_map.mp h2
        exact Or.inr ⟨f, hf, hfl.symm⟩
      · rcases List.mem_cons.mp h2 with rfl | h3
        · exact Or.inl inert_blank
        · exact absurd h3 (List.not_mem_nil _)
  intro line hline
  unfold reportLines at hline
  dsimp only at hline
  simp only [List.mem_append, List.mem_cons, List.not_mem_nil, or_false] at hline
  rcases hline with
    (((((((((((((rfl | rfl) | (rfl | rfl)) | (rfl | rfl)) | (rfl | rfl)) | rfl)
      | rfl) | rfl) | hst) | rfl) | (rfl | rfl)) | hE) | (rfl | rfl)) | hF) | hC
  · exact Or.inl (by decide)
  · exact Or.inl inert_blank
  · refine Or.inl ?_
    show InertLine ('G' :: (str "enerated on: " ++ ts))
    exact inert_cons _ (by decide) (by decide)
  · exact Or.inl inert_blank
  · refine Or.inl ?_
    show InertLine ('T' :: (str "arget folder: `" ++ root ++ str "`"))
    exact inert_cons _ (by decide) (by decide)
  · exact Or.inl inert_blank
  · exact Or.inr (Or.inl ⟨str "Statistics", by decide⟩)
  · exact Or.inl inert_blank
  · refine Or.inl ?_
    show InertLine ('-' :: ' ' :: 'T' ::
      (str "otal files processed: " ++ natChars files.length))
    exact inert_dash _ (by decide)
  · refine Or.inl ?_
    show InertLine ('-' :: ' ' :: 'E' ::
      (str "mpty files: " ++ natChars (categorize files).emptyFiles.length))
    exact inert_dash _ (by decide)
  · refine Or.inl ?_
    show InertLine ('-' :: ' ' :: 'F' :: (str "iles with frontmatter only: "
      ++ natChars (categorize files).frontmatterOnlyFiles.length))
    exact inert_dash _ (by decide)
  · obtain ⟨p, hp, hpl⟩ := List.mem_map.mp hst
    refine Or.inl ?_
    rw [← hpl]
    apply inert_statLine
    obtain ⟨f, hf, hfc, hfl⟩ := keys_label_exists
      (List.mem_map_of_mem (·.1) hp)
    rw [← hfl]
    exact hlab f hf hfc
  · exact Or.inl inert_blank
  · exact Or.inr (Or.inl ⟨str "Empty Files", by decide⟩)
  · exact Or.inl inert_blank
  · rcases hbody _ _ (inert_cons _ (by decide) (by decide)) line hE with h | ⟨f, hf, hfl⟩
    · exact Or.inl h
    · refine Or.inr (Or.inr ⟨f, ?_, hfl⟩)
      unfold renderedFiles
      dsimp only
      exact List.mem_append.mpr (Or.inl (List.mem_append.mpr (Or.inl hf)))
  · exact Or.inr (Or.inl ⟨str "Files with Frontmatter Only", by decide⟩)
  · exact Or.inl inert_blank
  · rcases hbody _ _ (inert_cons _ (by decide) (by decide)) line hF with h | ⟨f, hf, hfl⟩
    · exact Or.inl h
    · refine Or.inr (Or.inr ⟨f, ?_, hfl⟩)
      unfold renderedFiles
      dsimp only
      exact List.mem_append.mpr (Or.inl (List.mem_append.mpr (Or.inr hf)))
  · obtain ⟨piece, hpiece, hlp⟩ := List.mem_flatten.mp hC
    obtain ⟨ct, hct, hcteq⟩ := List.mem_map.mp hpiece
    rw [← hcteq] at hlp
    unfold classSectionLines at hlp
    rcases List.mem_append.mp hlp with h2 | h2
    · rcases List.mem_cons.mp h2 with rfl | h3
      · refine Or.inr (Or.inl ⟨ct ++ str " Files", ?_⟩)
        rw [List.append_assoc]
      · rcases List.mem_cons.mp h3 with rfl | h4
        · exact Or.inl inert_blank
        · exact absurd h4 (List.not_mem_nil _)
    · have hplc : InertLine (str "No " ++ toLowerStr ct ++ str " files found.") := by
        show InertLine ('N' :: ((str "o " ++ toLowerStr ct) ++ str " files found."))
        exact inert_cons _ (by decide) (by decide)
      rcases hbody _ _ hplc line h2 with h | ⟨f, hf, hfl⟩
      · exact Or.inl h
      · refine Or.inr (Or.inr ⟨f, ?_, hfl⟩)
        unfold renderedFiles
        dsimp only
        refine List.mem_append.mpr (Or.inr (List.mem_flatten.mpr
          ⟨sortByPath (classLookup (categorize files).classificationMap ct),
           List.mem_map_of_mem _ hct, hf⟩))

/-! ## Counting the statistics block (section totals vs. map size) -/

/-- The number of entries rendered across all sections of the report. -/
def sectionsTotal (c : Categorized) : Nat :=
  c.emptyFiles.length + c.frontmatterOnlyFiles.length
    + (c.classificationMap.map (·.2.length)).sum

theorem sectionsTotal_eq (files : List ResultFile) :
    sectionsTotal (categorize files) + (files.filter isDropped).length
      = files.length := by
  have hlen := (partition4_perm files).length_eq
  simp only [List.length_append] at hlen
  have hE : (categorize files).emptyFiles = files.filter isEmptyStatus := by
    unfold categorize
    rw [cat_emptyFiles_aux files ⟨[], [], []⟩]
    rfl
  have hF : (categorize files).frontmatterOnlyFiles = files.filter isFmStatus := by
    unfold categorize
    rw [cat_fmFiles_aux files ⟨[], [], []⟩]
    rfl
  have hC : ((categorize files).classificationMap.map (·.2.length)).sum
      = (files.filter isClassified).length := by
    have hperm : (((categorize files).classificationMap.map (·.2)).flatten).Perm
        (files.filter isClassified) := by
      unfold categorize
      have := cat_flatten_perm files ⟨[], [], []⟩
      simpa using this
    have hlen2 := hperm.length_eq
    rw [← hlen2]
    rw [List.length_flatten, List.map_map]
    rfl
  unfold sectionsTotal
  rw [hE, hF, hC]
  omega

/-! ## The verified properties -/

/-- Modelled from the spec: §4.1's link-to-path conversion replaces the
link's logical path separator with the runtime path separator, appends
the *configured* document file-extension `ext`, and resolves the result
relative to `rootLocation`. -/
def specConvertLink (rootLocation ext obsidianLink : Str) : Str :=
  filepathJoin rootLocation (replaceAllChar obsidianLink '/' '/' ++ ext)

/-- C5 (counterexample): with a configured extension of `.txt`, the
code's conversion does not append it — `convertObsidianLinkToPath`
always produces a `.md` path, so the "configured document
file-extension" clause fails for any configuration other than `.md`. -/
theorem c5_link_conversion_counterexample :
    convertObsidianLinkToPath (str "/r") (str "a")
      ≠ specConvertLink (str "/r") (str ".txt") (str "a")
    ∧ convertObsidianLinkToPath (str "/r") (str "a") = str "/r/a.md" := by
  exact ⟨by decide, by decide⟩

/-- C5 (amended): `convertObsidianLinkToPath` performs exactly the
spec's conversion with the extension fixed to the hard-coded `.md`,
regardless of configuration: separator replacement, `.md` appended,
resolved relative to the root location. -/
theorem c5_link_conversion_amended :
    ∀ rootLocation obsidianLink,
      convertObsidianLinkToPath rootLocation obsidianLink
        = specConvertLink rootLocation (str ".md") obsidianLink := by
  intro rootLocation obsidianLink
  rfl

/-- C4 (refuted; code bug): encoding the same two-record mapping in its
two possible Go-map iteration orders produces different report bytes —
the per-label statistics lines are emitted in raw map-iteration order
(`for classType, classFiles := range classificationMap`), not in
label-sorted order, so the encoding is not deterministic. -/
theorem c4_encode_order_dependent :
    ([(⟨str "/r/a.md", StatusNeedsReview, str "A"⟩ : ResultFile),
      ⟨str "/r/b.md", StatusNeedsReview, str "B"⟩]).Perm
      [⟨str "/r/b.md", StatusNeedsReview, str "B"⟩,
       ⟨str "/r/a.md", StatusNeedsReview, str "A"⟩]
    ∧ reportContent (str "/r") (str "T")
        [⟨str "/r/a.md", StatusNeedsReview, str "A"⟩,
         ⟨str "/r/b.md", StatusNeedsReview, str "B"⟩]
      ≠ reportContent (str "/r") (str "T")
        [⟨str "/r/b.md", StatusNeedsReview, str "B"⟩,
         ⟨str "/r/a.md", StatusNeedsReview, str "A"⟩] := by
  exact ⟨by decide, by decide⟩

/-- C6: initialising against a root with no report file at the report
path succeeds with an empty processed-files map, while an existing but
unreadable report file makes initialisation fail with no state
produced. -/
theorem c6_initialization :
    ∀ (fs : List (Str × FileObj)) (root : Str),
      (fsLookup fs (filepathJoin root (str "vault-quality-report.md")) = none →
        NewFS fs root
          = some ⟨root, filepathJoin root (str "vault-quality-report.md"), []⟩)
      ∧ ∀ obj,
          fsLookup fs (filepathJoin root (str "vault-quality-report.md")) = some obj →
          obj.readable = false → NewFS fs root = none := by
  intro fs root
  constructor
  · intro h
    simp [NewFS, h]
  · intro obj h hr
    simp [NewFS, h, hr]

/-- Witness for C6 at a concrete file system. -/
theorem c6_initialization_witness :
    NewFS [] (str "/r")
      = some ⟨str "/r", str "/r/vault-quality-report.md", []⟩
    ∧ NewFS [(str "/r/vault-quality-report.md", ⟨str "x", false⟩)] (str "/r")
      = none := by
  constructor
  · exact (c6_initialization [] (str "/r")).1 rfl
  · exact (c6_initialization [(str "/r/vault-quality-report.md", ⟨str "x", false⟩)]
      (str "/r")).2 ⟨str "x", false⟩ (by decide) rfl

/-- C7: `AddProcessedFile` puts the record into the in-memory map
before persisting, the entry for the record's path is present in the
resulting state, and on any persistence failure the error is returned
while the insertion is kept (no rollback). -/
theorem c7_upsert_retains_on_failure :
    ∀ (ps : ProcessingState) (file : ResultFile) (fs : List (Str × FileObj))
      (ts : Str) (oc : IOOutcome),
      (AddProcessedFileFS ps file fs ts oc).1.ProcessedFiles
        = mapInsert ps.ProcessedFiles file.Path file
      ∧ lookupMap (AddProcessedFileFS ps file fs ts oc).1.ProcessedFiles file.Path
        = some file
      ∧ (oc ≠ .ok → (AddProcessedFileFS ps file fs ts oc).2.2 = true) := by
  intro ps file fs ts oc
  refine ⟨rfl, lookupMap_insert_self _ _ _, ?_⟩
  intro hne
  cases oc with
  | ok => exact absurd rfl hne
  | writeFail => rfl
  | closeFail => rfl
  | renameFail => rfl

/-- Witness for C7: a failing write still returns the error with the
new entry in the map. -/
theorem c7_upsert_retains_on_failure_witness :
    (AddProcessedFileFS ⟨str "/r", str "/r/vault-quality-report.md", []⟩
        ⟨str "/r/a.md", StatusEmpty, str "Empty"⟩ [] (str "T") .writeFail).2.2 = true
    ∧ lookupMap (AddProcessedFileFS ⟨str "/r", str "/r/vault-quality-report.md", []⟩
        ⟨str "/r/a.md", StatusEmpty, str "Empty"⟩ [] (str "T")
          .writeFail).1.ProcessedFiles (str "/r/a.md")
      = some ⟨str "/r/a.md", StatusEmpty, str "Empty"⟩ := by
  have h := c7_upsert_retains_on_failure
    ⟨str "/r", str "/r/vault-quality-report.md", []⟩
    ⟨str "/r/a.md", StatusEmpty, str "Empty"⟩ [] (str "T") .writeFail
  exact ⟨h.2.2 (by decide), h.2.1⟩

/-- C9: the record produced for a parsed entry line is determined by
the current section heading — `Empty Files` gives status `Empty` and
label `Empty`, `Files with Frontmatter Only` gives status
`Frontmatter-only` and label `Low quality`, and any other section gives
status `Needs-review` with the heading's trailing `" Files"` suffix
stripped when present, the heading verbatim otherwise. -/
theorem c9_decode_section_canonicalization
    (root sec stem : Str) (m : List (Str × ResultFile))
    (hsec : sec ≠ []) (hne : stem ≠ []) (hnb : ']' ∉ stem) :
    decodeLineStep root (sec, m) (str "- [[" ++ stem ++ str "]]")
      = (sec, mapInsert m (convertObsidianLinkToPath root stem)
          ⟨convertObsidianLinkToPath root stem,
           if sec = str "Empty Files" then StatusEmpty
           else if sec = str "Files with Frontmatter Only" then
             StatusFrontmatterOnly
           else StatusNeedsReview,
           if sec = str "Empty Files" then str "Empty"
           else if sec = str "Files with Frontmatter Only" then str "Low quality"
           else if (str " Files").isSuffixOf sec = true then
             goTrimSuffix sec (str " Files")
           else sec⟩) := by
  rw [decode_entry m hsec hne hnb, ← convert_eq_pathOf]
  have hrec : sectionRecord sec (convertObsidianLinkToPath root stem)
      = ⟨convertObsidianLinkToPath root stem,
         if sec = str "Empty Files" then StatusEmpty
         else if sec = str "Files with Frontmatter Only" then StatusFrontmatterOnly
         else StatusNeedsReview,
         if sec = str "Empty Files" then str "Empty"
         else if sec = str "Files with Frontmatter Only" then str "Low quality"
         else if (str " Files").isSuffixOf sec = true then
           goTrimSuffix sec (str " Files")
         else sec⟩ := by
    unfold sectionRecord sectionFields
    by_cases h1 : sec = str "Empty Files"
    · rw [h1]
      simp only [ResultFile.mk.injEq, true_and]
      exact ⟨by decide, by decide⟩
    · by_cases h2 : sec = str "Files with Frontmatter Only"
      · rw [h2]
        simp only [ResultFile.mk.injEq, true_and]
        exact ⟨by decide, by decide⟩
      · by_cases h3 : (str " Files").isSuffixOf sec = true
        · simp [h1, h2, h3]
        · simp [h1, h2, h3]
  rw [hrec]

/-- Witness for C9 at a dynamically named section. -/
theorem c9_decode_section_canonicalization_witness :
    decodeLineStep (str "/r") (str "Good enough Files", [])
        (str "- [[" ++ str "note" ++ str "]]")
      = (str "Good enough Files",
         mapInsert [] (convertObsidianLinkToPath (str "/r") (str "note"))
          ⟨convertObsidianLinkToPath (str "/r") (str "note"), StatusNeedsReview,
           str "Good enough"⟩) := by
  have h := c9_decode_section_canonicalization (str "/r") (str "Good enough Files")
    (str "note") [] (by decide) (by decide) (by decide)
  exact h.trans (by decide)

/-- C10: the statistics block's total line reports the size of the full
in-memory map; every record of the silent fourth branch (non-reserved
status, empty label) is counted there but rendered in no section, so
the reported total strictly exceeds the sum of entries across all
sections whenever such a record exists. -/
theorem c10_total_counts_all (root ts : Str) (files : List ResultFile) :
    (∃ pre post, reportContent root ts files
        = pre ++ (str "- Total files processed: " ++ natChars files.length
            ++ str "\n") ++ post)
    ∧ sectionsTotal (categorize files) + (files.filter isDropped).length
        = files.length
    ∧ (files.filter isDropped ≠ [] →
        sectionsTotal (categorize files) < files.length) := by
  refine ⟨⟨str "# Vault Quality Report\n\n"
      ++ (str "Generated on: " ++ ts ++ str "\n\n")
      ++ (str "Target folder: `" ++ root ++ str "`\n\n")
      ++ str "## Statistics\n\n",
    (str "- Empty files: " ++ natChars (categorize files).emptyFiles.length
        ++ str "\n")
      ++ (str "- Files with frontmatter only: "
          ++ natChars (categorize files).frontmatterOnlyFiles.length ++ str "\n")
      ++ statsLines (categorize files).classificationMap
      ++ str "\n"
      ++ str "## Empty Files\n\n"
      ++ (if (categorize files).emptyFiles.length = 0 then
            str "No empty files found.\n\n"
          else entryLines root (sortByPath (categorize files).emptyFiles)
            ++ str "\n")
      ++ str "## Files with Frontmatter Only\n\n"
      ++ (if (categorize files).frontmatterOnlyFiles.length = 0 then
            str "No files with frontmatter only found.\n\n"
          else entryLines root (sortByPath (categorize files).frontmatterOnlyFiles)
            ++ str "\n")
      ++ classSections root (categorize files).classificationMap, ?_⟩,
    sectionsTotal_eq files, ?_⟩
  · unfold reportContent
    dsimp only
    simp only [List.append_assoc]
  · intro hne
    have h := sectionsTotal_eq files
    have hpos : 0 < (files.filter isDropped).length := List.length_pos.mpr hne
    omega

/-- Witness for C10: one dropped record makes the sections sum to
strictly less than the reported total. -/
theorem c10_total_counts_all_witness :
    sectionsTotal (categorize [(⟨str "/r/a.md", StatusNeedsReview, []⟩ : ResultFile)])
      < [(⟨str "/r/a.md", StatusNeedsReview, []⟩ : ResultFile)].length :=
  (c10_total_counts_all (str "/r") (str "T")
    [⟨str "/r/a.md", StatusNeedsReview, []⟩]).2.2 (by decide)

/-- C2: the encode path writes the full report to the sibling `.tmp`
file and renames it over the report path only on success — on a write
or close failure the error is reported, the temporary file is removed,
and the report path's content is exactly what it was before; on success
the report path holds the full generated content and the temporary file
is gone. -/
theorem c2_atomic_persistence :
    ∀ (fs : List (Str × FileObj)) (ps : ProcessingState) (ts : Str)
      (oc : IOOutcome),
      (oc = .writeFail ∨ oc = .closeFail →
        (updateReportFS fs ps ts oc).2 = true
        ∧ fsLookup (updateReportFS fs ps ts oc).1 (ps.ReportPath ++ str ".tmp")
            = none
        ∧ fsLookup (updateReportFS fs ps ts oc).1 ps.ReportPath
            = fsLookup fs ps.ReportPath)
      ∧ ((updateReportFS fs ps ts .ok).2 = false
        ∧ fsLookup (updateReportFS fs ps ts .ok).1 ps.ReportPath
            = some ⟨reportContent ps.TargetFolder ts (valuesOf ps.ProcessedFiles),
                true⟩
        ∧ fsLookup (updateReportFS fs ps ts .ok).1 (ps.ReportPath ++ str ".tmp")
            = none) := by
  intro fs ps ts oc
  constructor
  · intro h
    rcases h with rfl | rfl
    · unfold updateReportFS
      dsimp only
      refine ⟨rfl, fsLookup_remove_self _ _, ?_⟩
      rw [fsLookup_remove_ne _ (tmp_ne_report _),
        fsLookup_insert_ne _ _ (tmp_ne_report _)]
    · unfold updateReportFS
      dsimp only
      refine ⟨rfl, fsLookup_remove_self _ _, ?_⟩
      rw [fsLookup_remove_ne _ (tmp_ne_report _),
        fsLookup_insert_ne _ _ (tmp_ne_report _),
        fsLookup_insert_ne _ _ (tmp_ne_report _)]
  · refine ⟨rfl, updateReportFS_ok_report fs ps ts, ?_⟩
    unfold updateReportFS
    dsimp only
    exact fsLookup_remove_self _ _

/-- Witness for C2: a write failure on a file system that already holds
a report leaves that report untouched. -/
theorem c2_atomic_persistence_witness :
    (updateReportFS [(str "/r/vault-quality-report.md", ⟨str "old", true⟩)]
        ⟨str "/r", str "/r/vault-quality-report.md", []⟩ (str "T") .writeFail).2
      = true
    ∧ fsLookup (updateReportFS [(str "/r/vault-quality-report.md", ⟨str "old", true⟩)]
        ⟨str "/r", str "/r/vault-quality-report.md", []⟩ (str "T") .writeFail).1
        (str "/r/vault-quality-report.md" ++ str ".tmp") = none
    ∧ fsLookup (updateReportFS [(str "/r/vault-quality-report.md", ⟨str "old", true⟩)]
        ⟨str "/r", str "/r/vault-quality-report.md", []⟩ (str "T") .writeFail).1
        (str "/r/vault-quality-report.md")
      = fsLookup [(str "/r/vault-quality-report.md", ⟨str "old", true⟩)]
          (str "/r/vault-quality-report.md") := by
  exact (c2_atomic_persistence [(str "/r/vault-quality-report.md", ⟨str "old", true⟩)]
    ⟨str "/r", str "/r/vault-quality-report.md", []⟩ (str "T") .writeFail).1
    (Or.inl rfl)

/-- C1 (counterexample): a needs-classification record whose label is
the literal `Empty` is rendered under the dynamic `## Empty Files`
heading, which collides with the reserved empty-files section, so the
decoder gives it status `Empty` — the claim's "statusTag of every
non-reserved entry collapsed to needs-classification" fails (keys and
labels still round-trip). -/
theorem c1_roundtrip_counterexample :
    lookupMap (loadReport (str "/r") (reportContent (str "/r") (str "T")
        [⟨str "/r/a.md", StatusNeedsReview, str "Empty"⟩])) (str "/r/a.md")
      = some ⟨str "/r/a.md", StatusEmpty, str "Empty"⟩
    ∧ StatusEmpty ≠ StatusNeedsReview := by
  exact ⟨by decide, by decide⟩

/-- C1 (amended): for path-distinct, scanner-well-formed records whose
labels match what the pipeline produces (reserved statuses carry their
canonical labels; other records carry a nonempty, newline-free label
not starting with `[[`), decoding the encoded report preserves the key
set and every classification label, and decodes each record's status to
`decodeStatus` — `Empty` and `Frontmatter-only` survive, and a
non-reserved status collapses to `Needs-review` unless the label is the
literal `Empty`, in which case it becomes `Empty`. -/
theorem c1_roundtrip_amended {root ts : Str} {files : List ResultFile}
    (hroot : '\n' ∉ root) (hts : '\n' ∉ ts)
    (hdist : files.Pairwise (fun a b => a.Path ≠ b.Path))
    (hwf : ∀ f ∈ files, WfPath root f.Path)
    (hres : ∀ f ∈ files,
      (f.Status = StatusEmpty → f.Classification = str "Empty")
      ∧ (f.Status = StatusFrontmatterOnly → f.Classification = str "Low quality")
      ∧ (f.Status ≠ StatusEmpty → f.Status ≠ StatusFrontmatterOnly →
          f.Classification ≠ [] ∧ '\n' ∉ f.Classification
          ∧ ¬ ((str "[[").isPrefixOf f.Classification = true))) :
    (∀ p, (lookupMap (loadReport root (reportContent root ts files)) p).isSome = true
        ↔ ∃ f ∈ files, f.Path = p)
    ∧ ∀ f ∈ files,
        lookupMap (loadReport root (reportContent root ts files)) f.Path
          = some ⟨f.Path, decodeStatus f, f.Classification⟩ := by
  have hrend : ∀ f ∈ files, renderedRec f := by
    intro f hf
    by_cases h1 : f.Status = StatusEmpty
    · exact Or.inl (by simp [isEmptyStatus, h1])
    · by_cases h2 : f.Status = StatusFrontmatterOnly
      · refine Or.inr (Or.inl ?_)
        simp only [isFmStatus, decide_eq_true_eq]
        exact ⟨h1, h2⟩
      · refine Or.inr (Or.inr ?_)
        simp only [isClassified, decide_eq_true_eq]
        exact ⟨h1, h2, ((hres f hf).2.2 h1 h2).1⟩
  have hlab : ∀ f ∈ files, isClassified f = true →
      '\n' ∉ f.Classification ∧ ¬ ((str "[[").isPrefixOf f.Classification = true) := by
    intro f hf hc
    simp only [isClassified, decide_eq_true_eq] at hc
    exact ⟨((hres f hf).2.2 hc.1 hc.2.1).2.1, ((hres f hf).2.2 hc.1 hc.2.1).2.2⟩
  have hmain := lookup_loadReport hroot hts (fun f hf _ => hwf f hf) hlab hdist
  constructor
  · intro p
    rw [hmain p]
    constructor
    · intro hs
      cases hfind : files.find? (fun f => decide (f.Path = p)) with
      | none =>
        rw [hfind] at hs
        simp at hs
      | some f =>
        exact ⟨f, List.mem_of_find?_eq_some hfind,
          by simpa using List.find?_some hfind⟩
    · rintro ⟨f, hf, rfl⟩
      rw [find_path_self hdist hf]
      show (if renderedRec f then some (decodeVersion f) else none).isSome = true
      rw [if_pos (hrend f hf)]
      rfl
  · intro f hf
    rw [hmain f.Path, find_path_self hdist hf]
    show (if renderedRec f then some (decodeVersion f) else none) = _
    rw [if_pos (hrend f hf)]
    have hl : decodeLabel f = f.Classification := by
      unfold decodeLabel
      by_cases h1 : f.Status = StatusEmpty
      · rw [if_pos h1, (hres f hf).1 h1]
      · by_cases h2 : f.Status = StatusFrontmatterOnly
        · rw [if_neg h1, if_pos h2, (hres f hf).2.1 h2]
        · rw [if_neg h1, if_neg h2]
    unfold decodeVersion
    rw [hl]

/-- Witness for C1 at two concrete records. -/
theorem c1_roundtrip_amended_witness :
    lookupMap (loadReport (str "/r") (reportContent (str "/r") (str "T")
        [⟨str "/r/a.md", StatusEmpty, str "Empty"⟩,
         ⟨str "/r/b.md", StatusNeedsReview, str "Good enough"⟩])) (str "/r/b.md")
      = some ⟨str "/r/b.md",
          decodeStatus ⟨str "/r/b.md", StatusNeedsReview, str "Good enough"⟩,
          str "Good enough"⟩ := by
  have hwf : ∀ f ∈ [(⟨str "/r/a.md", StatusEmpty, str "Empty"⟩ : ResultFile),
      ⟨str "/r/b.md", StatusNeedsReview, str "Good enough"⟩],
      WfPath (str "/r") f.Path := by
    intro f hf
    rcases List.mem_cons.mp hf with rfl | hf2
    · exact ⟨str "a", by decide, by decide, by decide, by decide⟩
    · rcases List.mem_cons.mp hf2 with rfl | hf3
      · exact ⟨str "b", by decide, by decide, by decide, by decide⟩
      · exact absurd hf3 (List.not_mem_nil _)
  exact (c1_roundtrip_amended (by decide) (by decide) (by decide) hwf (by decide)).2
    ⟨str "/r/b.md", StatusNeedsReview, str "Good enough"⟩ (by decide)

/-- C3 (counterexample): a full run over two records — one whose path
does not end in `.md`, one whose classification label contains a
newline — persists successfully, yet after re-initialising against the
same root neither originally upserted path is reported as processed:
the encode/decode cycle is lossy for paths outside the scanner's shape
and for labels with embedded newlines. -/
theorem c3_resume_counterexample :
    (NewFS (runUpserts (str "T")
        (⟨str "/r", filepathJoin (str "/r") (str "vault-quality-report.md"), []⟩, [])
        [⟨str "/r/a.txt", StatusNeedsReview, str "Good"⟩,
         ⟨str "/r/b.md", StatusNeedsReview, '\n' :: str "Y"⟩]).2 (str "/r")).elim
      false (fun ps1 => !(IsFileProcessed ps1 (str "/r/a.txt"))
        && !(IsFileProcessed ps1 (str "/r/b.md"))) = true := by decide

/-- C3 (amended): for records with pairwise-distinct scanner-shaped
paths (`.md` strictly below the root, stems free of `]` and newlines),
each rendered into some section, with newline-free labels not starting
with `[[`, one full run from a fresh state over an empty file system
followed by re-initialisation against the same root yields a state on
which `IsFileProcessed` is true for every originally upserted path. -/
theorem c3_resume_amended {root ts : Str} {records : List ResultFile}
    (hroot : '\n' ∉ root) (hts : '\n' ∉ ts)
    (hdist : records.Pairwise (fun a b => a.Path ≠ b.Path))
    (hwf : ∀ f ∈ records, WfPath root f.Path)
    (hrend : ∀ f ∈ records, renderedRec f)
    (hlab : ∀ f ∈ records, isClassified f = true →
      '\n' ∉ f.Classification ∧ ¬ ((str "[[").isPrefixOf f.Classification = true)) :
    ∃ ps1, NewFS (runUpserts ts
        (⟨root, filepathJoin root (str "vault-quality-report.md"), []⟩, [])
        records).2 root = some ps1
      ∧ ∀ f ∈ records, IsFileProcessed ps1 f.Path = true := by
  by_cases hne : records = []
  · subst hne
    exact ⟨⟨root, filepathJoin root (str "vault-quality-report.md"), []⟩, rfl,
      fun f hf => absurd hf (List.not_mem_nil _)⟩
  · have hps := runUpserts_ps ts records
      ⟨root, filepathJoin root (str "vault-quality-report.md"), []⟩ []
    have hmap : (runUpserts ts
        (⟨root, filepathJoin root (str "vault-quality-report.md"), []⟩, [])
        records).1.ProcessedFiles = records.map (fun f => (f.Path, f)) := by
      rw [hps]
      exact foldl_mapInsert_all hdist
    have hfs := runUpserts_fs ts records
      ⟨root, filepathJoin root (str "vault-quality-report.md"), []⟩ [] hne
    rw [hmap, valuesOf_map_pair] at hfs
    refine ⟨⟨root, filepathJoin root (str "vault-quality-report.md"),
        loadReport root (reportContent root ts records)⟩, ?_, ?_⟩
    · unfold NewFS
      dsimp only
      rw [hfs]
      rfl
    · intro f hf
      unfold IsFileProcessed
      dsimp only
      rw [lookup_loadReport hroot hts (fun g hg _ => hwf g hg) hlab hdist f.Path]
      rw [find_path_self hdist hf]
      show (if renderedRec f then some (decodeVersion f) else none).isSome = true
      rw [if_pos (hrend f hf)]
      rfl

/-- Witness for C3 at one concrete record. -/
theorem c3_resume_amended_witness :
    ∃ ps1, NewFS (runUpserts (str "T")
        (⟨str "/r", filepathJoin (str "/r") (str "vault-quality-report.md"), []⟩, [])
        [⟨str "/r/a.md", StatusEmpty, str "Empty"⟩]).2 (str "/r") = some ps1
      ∧ ∀ f ∈ [(⟨str "/r/a.md", StatusEmpty, str "Empty"⟩ : ResultFile)],
          IsFileProcessed ps1 f.Path = true := by
  refine c3_resume_amended (by decide) (by decide) (by decide) ?_ (by decide)
    (by decide)
  intro f hf
  rcases List.mem_cons.mp hf with rfl | hf2
  · exact ⟨str "a", by decide, by decide, by decide, by decide⟩
  · exact absurd hf2 (List.not_mem_nil _)

/-- A record of the silent fourth branch is placed in no section bucket
and its entry line occurs nowhere in the generated report text. -/
theorem dropped_not_rendered {root ts : Str} {files : List ResultFile}
    {r : ResultFile}
    (hlbl : r.Classification = [])
    (hst1 : r.Status ≠ StatusEmpty) (hst2 : r.Status ≠ StatusFrontmatterOnly)
    (hroot : '\n' ∉ root) (hts : '\n' ∉ ts)
    (hwfp : ∀ f ∈ files, renderedRec f → WfPath root f.Path)
    (hlab : ∀ f ∈ files, isClassified f = true →
      '\n' ∉ f.Classification ∧ ¬ ((str "[[").isPrefixOf f.Classification = true))
    (hlink : ∀ f ∈ files, renderedRec f →
      formatObsidianLink root f.Path ≠ formatObsidianLink root r.Path) :
    (r ∉ (categorize files).emptyFiles
      ∧ r ∉ (categorize files).frontmatterOnlyFiles
      ∧ ∀ ct, r ∉ classLookup (categorize files).classificationMap ct)
    ∧ ∀ line ∈ splitNl (reportContent root ts files),
        line ≠ str "- " ++ formatObsidianLink root r.Path := by
  have hE : (categorize files).emptyFiles = files.filter isEmptyStatus := by
    unfold categorize
    rw [cat_emptyFiles_aux files ⟨[], [], []⟩]
    rfl
  have hF : (categorize files).frontmatterOnlyFiles = files.filter isFmStatus := by
    unfold categorize
    rw [cat_fmFiles_aux files ⟨[], [], []⟩]
    rfl
  have hbucket : ∀ ct, classLookup (categorize files).classificationMap ct
      = files.filter (isClassifiedAs ct) := by
    intro ct
    have := cat_classLookup_aux files ⟨[], [], []⟩ ct
    unfold categorize
    simpa [classLookup] using this
  constructor
  · refine ⟨?_, ?_, ?_⟩
    · rw [hE]
      intro hmem
      have := (List.mem_filter.mp hmem).2
      simp only [isEmptyStatus, decide_eq_true_eq] at this
      exact hst1 this
    · rw [hF]
      intro hmem
      have := (List.mem_filter.mp hmem).2
      simp only [isFmStatus, decide_eq_true_eq] at this
      exact hst2 this.2
    · intro ct
      rw [hbucket ct]
      intro hmem
      have := (List.mem_filter.mp hmem).2
      simp only [isClassifiedAs, decide_eq_true_eq] at this
      exact this.2.2.1 hlbl
  · have hlines := reportContent_lines hroot hts
      (fun f hf hr => nl_not_mem_entryLine (hwfp f hf hr))
      (fun f hf hc => (hlab f hf hc).1)
    unfold NlLines at hlines
    intro line hline
    rw [hlines] at hline
    rcases List.mem_append.mp hline with hline | hline
    · rcases reportLines_cases (fun f hf hc => (hlab f hf hc).2) line hline with
        hI | ⟨x, rfl⟩ | ⟨f, hf, rfl⟩
      · intro hcontra
        obtain ⟨z, hz⟩ := formatObsidianLink_shape root r.Path
        rw [hz] at hcontra
        apply hI.2
        rw [hcontra]
        refine List.isPrefixOf_iff_prefix.mpr ⟨z ++ str "]]", ?_⟩
        rw [show str "- [[" = str "- " ++ str "[[" from by decide]
        simp [List.append_assoc]
      · intro hcontra
        have h3 := congrArg (fun l => l.head?) hcontra
        simp [str] at h3
      · obtain ⟨hfm, hfr⟩ := mem_renderedFiles hf
        intro hcontra
        unfold entryLine at hcontra
        exact hlink f hfm hfr (List.append_cancel_left hcontra)
    · rw [List.mem_singleton.mp hline]
      intro hcontra
      have hlen := congrArg List.length hcontra
      simp [str] at hlen

/-- C8: upserting a record with an empty classification label and a
non-reserved status, then encoding, yields a report in which the
record's path appears in no section — it lands in none of the section
buckets and its entry line is on no line of the report text. -/
theorem c8_excluded_never_persists {root ts : Str}
    {m : List (Str × ResultFile)} {r : ResultFile}
    (hlbl : r.Classification = [])
    (hst1 : r.Status ≠ StatusEmpty) (hst2 : r.Status ≠ StatusFrontmatterOnly)
    (hroot : '\n' ∉ root) (hts : '\n' ∉ ts)
    (hwfp : ∀ f ∈ valuesOf (mapInsert m r.Path r), renderedRec f →
      WfPath root f.Path)
    (hlab : ∀ f ∈ valuesOf (mapInsert m r.Path r), isClassified f = true →
      '\n' ∉ f.Classification ∧ ¬ ((str "[[").isPrefixOf f.Classification = true))
    (hlink : ∀ f ∈ valuesOf (mapInsert m r.Path r), renderedRec f →
      formatObsidianLink root f.Path ≠ formatObsidianLink root r.Path) :
    (r ∉ (categorize (valuesOf (mapInsert m r.Path r))).emptyFiles
      ∧ r ∉ (categorize (valuesOf (mapInsert m r.Path r))).frontmatterOnlyFiles
      ∧ ∀ ct, r ∉ classLookup
          (categorize (valuesOf (mapInsert m r.Path r))).classificationMap ct)
    ∧ ∀ line ∈ splitNl (reportContent root ts (valuesOf (mapInsert m r.Path r))),
        line ≠ str "- " ++ formatObsidianLink root r.Path :=
  dropped_not_rendered hlbl hst1 hst2 hroot hts hwfp hlab hlink

/-- Witness for C8 at a concrete excluded record. -/
theorem c8_excluded_never_persists_witness :
    ((⟨str "/r/x.md", StatusExcluded, []⟩ : ResultFile)
        ∉ (categorize (valuesOf (mapInsert [] (str "/r/x.md")
            ⟨str "/r/x.md", StatusExcluded, []⟩))).emptyFiles
      ∧ (⟨str "/r/x.md", StatusExcluded, []⟩ : ResultFile)
        ∉ (categorize (valuesOf (mapInsert [] (str "/r/x.md")
            ⟨str "/r/x.md", StatusExcluded, []⟩))).frontmatterOnlyFiles
      ∧ ∀ ct, (⟨str "/r/x.md", StatusExcluded, []⟩ : ResultFile)
        ∉ classLookup (categorize (valuesOf (mapInsert [] (str "/r/x.md")
            ⟨str "/r/x.md", StatusExcluded, []⟩))).classificationMap ct)
    ∧ ∀ line ∈ splitNl (reportContent (str "/r") (str "T")
        (valuesOf (mapInsert [] (str "/r/x.md")
          ⟨str "/r/x.md", StatusExcluded, []⟩))),
        line ≠ str "- " ++ formatObsidianLink (str "/r") (str "/r/x.md") := by
  refine c8_excluded_never_persists rfl (by decide) (by decide) (by decide)
    (by decide) ?_ (by decide) (by decide)
  intro f hf hr
  simp only [mapInsert, valuesOf, List.map_cons, List.map_nil,
    List.mem_singleton] at hf
  rw [hf] at hr
  exact absurd hr (by decide)

end RateMyKb
